import Mathlib

/-!
Verification of the traversal-and-archive engine of the `cdc` directory
archiver (`src/main.rs`).

The Rust code is shallowly embedded as follows.

* Rust `PathBuf` values are modelled as lists of path components
  (`Comp`).  Rust compares `PathBuf`s component-wise
  (`impl PartialEq for PathBuf` is `self.components() == other.components()`),
  so `PathBuf::from` is modelled by `parsePath`, which reproduces the
  component parsing of `std::path` on Unix: a leading `/` becomes a root
  component, empty chunks between separators are dropped, and a `.` chunk
  is dropped unless it is the leading chunk of a relative path.
* The filesystem is a finite tree `FSTree`.  A node is a regular file
  with its byte content, a directory with its listing (in listing
  order), or a node on which the corresponding I/O primitive fails
  (`badFile`: `File::open`/`fs::metadata` fails, `badDir`:
  `fs::read_dir` fails).  Bytes are `Nat`s.
* The iterative walkers `zip_files` and `calculate_target_size` are
  embedded as stack machines (`zipAux`, `calcAux`).  The machines take a
  fuel argument bounding the number of loop iterations so that they are
  structurally recursive; fuel `stackMeasure stack` is proved sufficient
  (`zipAux_eq_runFlat`, `calcAux_eq_runCalcFlat`), and the exported functions
  supply it.
* The archive sink is observed as the list of completed entries written
  to it (`ZipRun.written`); `ZipRun.finished` records whether
  `zip.finish()` was reached, and `ZipRun.error` the propagated I/O
  error, if any.
-/

/-- A path component in the sense of `std::path::Component` (Unix):
the root directory, `.`, `..`, or a normal component. -/
inductive Comp where
  | rootDir
  | curDir
  | parentDir
  | normal (s : String)
deriving DecidableEq

/-- Split a character list at every occurrence of `sep`, keeping empty
chunks (the semantics of Rust's `str::split` on a one-character
pattern). -/
def splitCharList (sep : Char) : List Char → List (List Char)
  | [] => [[]]
  | x :: xs =>
    match splitCharList sep xs with
    | [] => [[]]
    | p :: ps => if x = sep then [] :: p :: ps else (x :: p) :: ps

/-- Rust `str::split` with a one-character pattern, at the `String`
level.  `splitOnChar c ""` is `[""]`, as in Rust. -/
def splitOnChar (sep : Char) (s : String) : List String :=
  (splitCharList sep s.data).map List.asString

/-- The component parsing performed by `Path::components` on Unix, which
underlies `PathBuf` equality: a leading `/` contributes a root
component; empty chunks are dropped; a `.` chunk is dropped unless it is
the first chunk of a relative path; `..` is kept. -/
def parsePath (s : String) : List Comp :=
  let chunks := (splitOnChar '/' s).filter (fun c => c ≠ "")
  if s.data.head? = some '/' then
    Comp.rootDir :: (chunks.filter (fun c => c ≠ ".")).map Comp.normal
  else
    match chunks with
    | [] => []
    | c :: rest =>
      (if c = "." then Comp.curDir else Comp.normal c) ::
        (rest.filter (fun c => c ≠ ".")).map Comp.normal

/-- The command-line argument record (`struct CliArgs`). -/
structure CliArgs where
  filename_out : String
  target : String
  redundancy : String
  excluded : String
deriving DecidableEq

/-- `Cli::prepare_exclude_directories`: split the `excluded` string on
commas and turn each piece into a path (`PathBuf::from`). -/
def prepare_exclude_directories (excluded : String) : List (List Comp) :=
  (splitOnChar ',' excluded).map parsePath

/-- `Cli::is_excluded_path`: the candidate directory entry's path is
compared against the prepared exclusion paths with `Vec::contains`,
i.e. `PathBuf` (component-wise) equality. -/
def is_excluded_path (excluded : String) (entryPath : List Comp) : Bool :=
  (prepare_exclude_directories excluded).contains entryPath

/-- The unit-label constants `KB_DEF`, `MB_DEF`, `GB_DEF`. -/
def KB_DEF : String := "Kb"

/-- See `KB_DEF`. -/
def MB_DEF : String := "Mb"

/-- See `KB_DEF`. -/
def GB_DEF : String := "Gb"

/-- Number of binary digits of `n`; the fuel is the bit width, so the
count is exact for every `u64` value (`n < 2 ^ 64`). -/
def bitsAux : Nat → Nat → Nat
  | 0, _ => 0
  | fuel + 1, n => if n = 0 then 0 else bitsAux fuel (n / 2) + 1

/-- Binary digit count of a `u64` value. -/
def bits64 (n : Nat) : Nat := bitsAux 64 n

/-- `n as f64` for a `u64` value `n`: IEEE-754 binary64 conversion,
round to nearest with ties to even on the 53-bit significand.  Below
`2 ^ 53` the conversion is exact. -/
def roundF64 (n : Nat) : Nat :=
  if n < 2 ^ 53 then n
  else
    let k := bits64 n - 53
    let q := n / 2 ^ k
    let r := n % 2 ^ k
    if r < 2 ^ (k - 1) then q * 2 ^ k
    else if 2 ^ (k - 1) < r then (q + 1) * 2 ^ k
    else if q % 2 = 0 then q * 2 ^ k
    else (q + 1) * 2 ^ k

/-- `Cli::as_human_read`.  The `u64` byte count is a `Nat`; the match
ranges test the integer `bytes` itself; `bytes as f64` is `roundF64`;
the subsequent divisions are by powers of two, which `f64` performs
exactly on these magnitudes (only the exponent changes, with no
overflow or underflow), so they are exact rational divisions. -/
def as_human_read (bytes : Nat) : ℚ × String :=
  if bytes ≤ 999 then ((roundF64 bytes : ℚ), KB_DEF)
  else if bytes ≤ 1048575 then ((roundF64 bytes : ℚ) / 1024, KB_DEF)
  else if bytes ≤ 1073741823 then ((roundF64 bytes : ℚ) / (1024 * 1024), MB_DEF)
  else ((roundF64 bytes : ℚ) / (1024 * 1024 * 1024), GB_DEF)

/-- Errors of the modelled I/O primitives.  `writeFailed` is an error
of the archive sink itself (`zip.add_directory`, `start_file`,
`write_all` or `finish` returning `Err`). -/
inductive IOErr where
  | listDirFailed
  | openFileFailed
  | homeNotSet
  | writeFailed
deriving DecidableEq

/-- `Cli::parse_relative_directory`.  `home` is the value of the `HOME`
environment variable (`none` when unset).  Note that the source rewrites
the target with `target.replace('~', "")`, which removes every
occurrence of `'~'`, not only the leading one. -/
def parse_relative_directory (home : Option String) (target : String) :
    Except IOErr String :=
  if target.data.head? = some '~' then
    match home with
    | none => Except.error IOErr.homeNotSet
    | some h => Except.ok (h ++ String.mk (target.data.filter (fun c => c ≠ '~')))
  else Except.ok target

/-- The target actually used by `Cli::run` after the
`parse_relative_directory` call: `run` only logs the error
(`unwrap_or_else(|er| eprintln!(..))`) and continues with the original,
unexpanded target. -/
def runTargetAfterExpansion (home : Option String) (target : String) : String :=
  match parse_relative_directory home target with
  | Except.ok t => t
  | Except.error _ => target

/-- The filesystem model: a finite tree of regular files (with byte
content), directories (with their children in listing order), and nodes
whose underlying I/O primitive fails. -/
inductive FSTree where
  | file (content : List Nat)
  | badFile
  | dir (children : List (String × FSTree))
  | badDir

mutual

/-- Number of nodes of a tree; used as machine fuel. -/
def FSTree.size : FSTree → Nat
  | .file _ => 1
  | .badFile => 1
  | .badDir => 1
  | .dir cs => 1 + FSTree.sizeL cs

/-- Total size of a children list. -/
def FSTree.sizeL : List (String × FSTree) → Nat
  | [] => 0
  | c :: r => c.2.size + FSTree.sizeL r

end

mutual

/-- Boolean equality on `FSTree`. -/
def FSTree.beq : FSTree → FSTree → Bool
  | .file a, .file b => a = b
  | .badFile, .badFile => true
  | .badDir, .badDir => true
  | .dir cs, .dir ds => FSTree.beqL cs ds
  | _, _ => false

/-- Boolean equality on children lists. -/
def FSTree.beqL : List (String × FSTree) → List (String × FSTree) → Bool
  | [], [] => true
  | (n, t) :: r, (m, u) :: s => n = m && FSTree.beq t u && FSTree.beqL r s
  | _, _ => false

end

instance : Inhabited FSTree := ⟨FSTree.badDir⟩

theorem FSTree.size_pos (t : FSTree) : 0 < t.size := by
  cases t <;> simp [FSTree.size]

mutual

theorem FSTree.beq_iff : ∀ (t u : FSTree), FSTree.beq t u = true ↔ t = u
  | .file a, .file b => by simp [FSTree.beq]
  | .file _, .badFile => by simp [FSTree.beq]
  | .file _, .badDir => by simp [FSTree.beq]
  | .file _, .dir _ => by simp [FSTree.beq]
  | .badFile, .file _ => by simp [FSTree.beq]
  | .badFile, .badFile => by simp [FSTree.beq]
  | .badFile, .badDir => by simp [FSTree.beq]
  | .badFile, .dir _ => by simp [FSTree.beq]
  | .badDir, .file _ => by simp [FSTree.beq]
  | .badDir, .badFile => by simp [FSTree.beq]
  | .badDir, .badDir => by simp [FSTree.beq]
  | .badDir, .dir _ => by simp [FSTree.beq]
  | .dir _, .file _ => by simp [FSTree.beq]
  | .dir _, .badFile => by simp [FSTree.beq]
  | .dir _, .badDir => by simp [FSTree.beq]
  | .dir cs, .dir ds => by
      simp only [FSTree.beq, FSTree.dir.injEq]
      exact FSTree.beqL_iff cs ds

theorem FSTree.beqL_iff : ∀ (cs ds : List (String × FSTree)),
    FSTree.beqL cs ds = true ↔ cs = ds
  | [], [] => by simp [FSTree.beqL]
  | [], _ :: _ => by simp [FSTree.beqL]
  | _ :: _, [] => by simp [FSTree.beqL]
  | (n, t) :: r, (m, u) :: s => by
      simp only [FSTree.beqL, Bool.and_eq_true, decide_eq_true_eq,
        List.cons.injEq, Prod.mk.injEq, FSTree.beq_iff t u, FSTree.beqL_iff r s]
      try tauto

end

instance : DecidableEq FSTree := fun t u =>
  decidable_of_iff _ (FSTree.beq_iff t u)

/-- One completed record in the archive: a directory marker
(`ZipWriter::add_directory`) or a file entry with its payload
(`ZipWriter::start_file` followed by `write_all`). -/
inductive Entry where
  | directory (name : String)
  | file (name : String) (data : List Nat)
deriving DecidableEq

/-- The name of an archive entry. -/
def Entry.name : Entry → String
  | .directory n => n
  | .file n _ => n

/-- `relative_path.to_str()` for a root-relative path: its components
joined by `'/'` (the relative paths are slices of paths built with
`Path::join`, so components are separated by single slashes). -/
def renderComps : List String → String
  | [] => ""
  | [c] => c
  | c₁ :: c₂ :: rest => c₁ ++ "/" ++ renderComps (c₂ :: rest)

/-- The observable outcome of a `zip_files` run: the entries written to
the sink, the `file_counter`, whether `zip.finish()` was reached, and
the propagated error, if any. -/
structure ZipRun where
  written : List Entry
  fileCounter : Nat
  finished : Bool
  error : Option IOErr
deriving DecidableEq

/-- The listing path of the node at root-relative component list `rel`:
the target's components followed by the (normal) name components, as
produced by `DirEntry::path` (`parent.join(file_name)`). -/
def listingPath (targetC : List Comp) (rel : List String) : List Comp :=
  targetC ++ rel.map Comp.normal

/-- The stack items pushed when the directory node `t` at `rel` is
popped: its children in listing order, those matching the exclusion
predicate skipped, each pushed onto the stack top (hence the reverse).
`excl?` is the exclusion test on the child's listing path
(`is_excluded_path` in `zip_files`). -/
def childStack (excl? : List Comp → Bool) (targetC : List Comp)
    (rel : List String) : FSTree → List (List String × FSTree)
  | .dir cs =>
      ((cs.filter (fun c => !excl? (listingPath targetC (rel ++ [c.1])))).map
        (fun c => (rel ++ [c.1], c.2))).reverse
  | _ => []

/-- Total tree size of a stack; bounds the number of remaining loop
iterations. -/
def stackMeasure : List (List String × FSTree) → Nat
  | [] => 0
  | it :: rest => it.2.size + stackMeasure rest

/-- The `zip_files` loop as a stack machine.  Each constructor case
mirrors one arm of the source: pop `current_path`; if it is a
directory, push the non-excluded children and (unless the relative path
is empty, i.e. the node is the root) add a directory entry whose name
gets a trailing `'/'`; otherwise `start_file`, read the file and write
its content, incrementing `file_counter`.  `fuel` bounds the iteration
count and is only a structural-recursion device. -/
def zipAux (excl? : List Comp → Bool) (targetC : List Comp) :
    Nat → List (List String × FSTree) → List Entry → Nat → ZipRun
  | _, [], acc, cnt => ⟨acc, cnt, true, none⟩
  | 0, _ :: _, acc, cnt => ⟨acc, cnt, false, none⟩
  | fuel + 1, (rel, t) :: rest, acc, cnt =>
    match t with
    | .dir cs =>
        let newStack := childStack excl? targetC rel (.dir cs) ++ rest
        if rel = [] then zipAux excl? targetC fuel newStack acc cnt
        else zipAux excl? targetC fuel newStack
          (acc ++ [Entry.directory (renderComps rel ++ "/")]) cnt
    | .badDir => ⟨acc, cnt, false, some IOErr.listDirFailed⟩
    | .file d =>
        zipAux excl? targetC fuel rest
          (acc ++ [Entry.file (renderComps rel) d]) (cnt + 1)
    | .badFile => ⟨acc, cnt, false, some IOErr.openFileFailed⟩

/-- `Cli::zip_files`, run against the filesystem tree `t` rooted at the
configured target.  The stack is seeded with the target itself (relative
path `[]`); the exclusion test is `is_excluded_path` on the entry's
listing path. -/
def zip_files (cfg : CliArgs) (t : FSTree) : ZipRun :=
  zipAux (fun p => is_excluded_path cfg.excluded p) (parsePath cfg.target)
    (stackMeasure [([], t)]) [([], t)] [] 0

/-- The `calculate_target_size` loop as a stack machine: pop a path; if
a directory, push every child (no exclusion test); otherwise add the
file's `metadata().len()` to the running total.  Any listing or metadata
error propagates immediately. -/
def calcAux : Nat → List (List String × FSTree) → Nat → Except IOErr Nat
  | _, [], acc => Except.ok acc
  | 0, _ :: _, acc => Except.ok acc
  | fuel + 1, (rel, t) :: rest, acc =>
    match t with
    | .dir cs =>
        calcAux fuel ((cs.map (fun c => (rel ++ [c.1], c.2))).reverse ++ rest) acc
    | .badDir => Except.error IOErr.listDirFailed
    | .file d => calcAux fuel rest (acc + d.length)
    | .badFile => Except.error IOErr.openFileFailed

/-- `Cli::calculate_target_size`, run against the tree `t` rooted at the
configured target.  The configuration is consulted only for the starting
path; in particular `cfg.excluded` is never read. -/
def calculate_target_size (cfg : CliArgs) (t : FSTree) : Except IOErr Nat :=
  calcAux (stackMeasure [([], t)]) [([], t)] 0

mutual

/-- Sum of the byte lengths of every regular file in the tree. -/
def totalSize : FSTree → Nat
  | .file d => d.length
  | .badFile => 0
  | .badDir => 0
  | .dir cs => totalSizeL cs

/-- Sum of `totalSize` over a children list. -/
def totalSizeL : List (String × FSTree) → Nat
  | [] => 0
  | c :: r => totalSize c.2 + totalSizeL r

end

mutual

/-- The nodes the `zip_files` walk pops, in pop order, starting from the
node `t` at relative path `rel`: the node itself, then the subtrees of
its non-excluded children, the last listed child first (children are
pushed in listing order onto a LIFO stack). -/
def prunedNodes (excl? : List Comp → Bool) (targetC : List Comp)
    (rel : List String) : FSTree → List (List String × FSTree)
  | .file d => [(rel, .file d)]
  | .badFile => [(rel, .badFile)]
  | .badDir => [(rel, .badDir)]
  | .dir cs => (rel, .dir cs) :: prunedKids excl? targetC rel cs

/-- The nodes popped from the subtrees of the non-excluded children
among `cs` (a suffix of a directory listing), last child first. -/
def prunedKids (excl? : List Comp → Bool) (targetC : List Comp)
    (rel : List String) : List (String × FSTree) → List (List String × FSTree)
  | [] => []
  | c :: rest =>
      prunedKids excl? targetC rel rest ++
        (if excl? (listingPath targetC (rel ++ [c.1])) then []
         else prunedNodes excl? targetC (rel ++ [c.1]) c.2)

end

/-- The archive entry a popped node produces, if any: a file node yields
a file entry named by its rendered relative path; a non-root directory
node yields a directory entry with a trailing `'/'`; the root directory
and the failing nodes yield none. -/
def entryOf : List String × FSTree → Option Entry
  | (rel, .file d) => some (Entry.file (renderComps rel) d)
  | (rel, .dir _) =>
      if rel = [] then none else some (Entry.directory (renderComps rel ++ "/"))
  | (_, .badFile) => none
  | (_, .badDir) => none

/-- Whether processing this node aborts the walk with an I/O error. -/
def isBadNode : FSTree → Bool
  | .badFile => true
  | .badDir => true
  | _ => false

/-- The error raised when processing a failing node. -/
def errOf : FSTree → IOErr
  | .badDir => IOErr.listDirFailed
  | _ => IOErr.openFileFailed

/-- The first I/O error hit along a pop sequence, if any. -/
def firstErr (nodes : List (List String × FSTree)) : Option IOErr :=
  (nodes.find? (fun it => isBadNode it.2)).map (fun it => errOf it.2)

/-- The prefix of a pop sequence processed before the first error. -/
def goodPrefix (nodes : List (List String × FSTree)) :
    List (List String × FSTree) :=
  nodes.takeWhile (fun it => !isBadNode it.2)

/-- The entries written while processing a pop sequence. -/
def entriesOf (nodes : List (List String × FSTree)) : List Entry :=
  nodes.filterMap entryOf

/-- The number of file entries in a pop sequence. -/
def filesCount (nodes : List (List String × FSTree)) : Nat :=
  nodes.countP (fun it => match it.2 with | .file _ => true | _ => false)

/-- The `zip_files` loop replayed over an explicit pop sequence: the
flattened form of `zipAux`, structurally recursive in the sequence. -/
def runFlat : List (List String × FSTree) → List Entry → Nat → ZipRun
  | [], acc, cnt => ⟨acc, cnt, true, none⟩
  | (rel, t) :: rest, acc, cnt =>
    match t with
    | .dir _ =>
        runFlat rest
          (acc ++ (if rel = [] then [] else [Entry.directory (renderComps rel ++ "/")])) cnt
    | .badDir => ⟨acc, cnt, false, some IOErr.listDirFailed⟩
    | .file d => runFlat rest (acc ++ [Entry.file (renderComps rel) d]) (cnt + 1)
    | .badFile => ⟨acc, cnt, false, some IOErr.openFileFailed⟩

theorem stackMeasure_append (a b : List (List String × FSTree)) :
    stackMeasure (a ++ b) = stackMeasure a + stackMeasure b := by
  induction a with
  | nil => simp [stackMeasure]
  | cons x r ih => simp [stackMeasure, ih]; omega

theorem stackMeasure_reverse (a : List (List String × FSTree)) :
    stackMeasure a.reverse = stackMeasure a := by
  induction a with
  | nil => rfl
  | cons x r ih =>
      simp [stackMeasure, List.reverse_cons, stackMeasure_append, ih]
      omega

theorem stackMeasure_childStack (excl? : List Comp → Bool) (targetC : List Comp)
    (rel : List String) (t : FSTree) :
    stackMeasure (childStack excl? targetC rel t) < t.size := by
  cases t with
  | dir cs =>
      simp only [childStack, stackMeasure_reverse]
      have h : ∀ l : List (String × FSTree),
          stackMeasure ((l.filter
              (fun c => !excl? (listingPath targetC (rel ++ [c.1])))).map
            (fun c => (rel ++ [c.1], c.2))) ≤ FSTree.sizeL l := by
        intro l
        induction l with
        | nil => simp [stackMeasure, FSTree.sizeL]
        | cons c r ih =>
            have hp := FSTree.size_pos c.2
            cases hc : excl? (listingPath targetC (rel ++ [c.1])) with
            | true =>
                simp only [FSTree.sizeL]
                simp [List.filter_cons, hc]
                omega
            | false =>
                simp only [FSTree.sizeL]
                simp [List.filter_cons, hc, stackMeasure]
                omega
      have := h cs
      simp only [FSTree.size]
      omega
  | file d => simp [childStack, stackMeasure, FSTree.size]
  | badFile => simp [childStack, stackMeasure, FSTree.size]
  | badDir => simp [childStack, stackMeasure, FSTree.size]

theorem childStack_flatMap_prunedNodes (excl? : List Comp → Bool)
    (targetC : List Comp) (rel : List String) (cs : List (String × FSTree)) :
    (childStack excl? targetC rel (.dir cs)).flatMap
        (fun it => prunedNodes excl? targetC it.1 it.2) =
      prunedKids excl? targetC rel cs := by
  induction cs with
  | nil => simp [childStack, prunedKids]
  | cons c rest ih =>
      simp only [childStack] at ih ⊢
      cases hc : excl? (listingPath targetC (rel ++ [c.1])) with
      | true => simp [List.filter_cons, hc, prunedKids, ih]
      | false =>
          simp [List.filter_cons, hc, prunedKids, List.flatMap_append, ih]

/-- The machine runs the flattened pop sequence: with fuel at least the
stack measure, `zipAux` equals `runFlat` on the concatenated pruned-node
sequences of the stack items. -/
theorem zipAux_eq_runFlat (excl? : List Comp → Bool) (targetC : List Comp) :
    ∀ (fuel : Nat) (stack : List (List String × FSTree))
      (acc : List Entry) (cnt : Nat), stackMeasure stack ≤ fuel →
      zipAux excl? targetC fuel stack acc cnt =
        runFlat (stack.flatMap (fun it => prunedNodes excl? targetC it.1 it.2))
          acc cnt := by
  intro fuel
  induction fuel with
  | zero =>
      intro stack acc cnt h
      cases stack with
      | nil => rfl
      | cons it rest =>
          exfalso
          have := FSTree.size_pos it.2
          simp [stackMeasure] at h
          omega
  | succ n ih =>
      intro stack acc cnt h
      cases stack with
      | nil => rfl
      | cons it rest =>
          obtain ⟨rel, t⟩ := it
          cases t with
          | file d =>
              simp only [zipAux, List.flatMap_cons, prunedNodes,
                List.cons_append, runFlat, List.nil_append]
              exact ih rest _ _ (by simp [stackMeasure, FSTree.size] at h ⊢; omega)
          | badFile => simp [zipAux, prunedNodes, runFlat]
          | badDir => simp [zipAux, prunedNodes, runFlat]
          | dir cs =>
              have hm : stackMeasure (childStack excl? targetC rel (.dir cs) ++ rest) ≤ n := by
                have h1 := stackMeasure_childStack excl? targetC rel (.dir cs)
                rw [stackMeasure_append]
                simp only [stackMeasure] at h
                omega
              have hflat :
                  (childStack excl? targetC rel (.dir cs) ++ rest).flatMap
                      (fun it => prunedNodes excl? targetC it.1 it.2) =
                    prunedKids excl? targetC rel cs ++
                      rest.flatMap (fun it => prunedNodes excl? targetC it.1 it.2) := by
                rw [List.flatMap_append, childStack_flatMap_prunedNodes]
              by_cases hrel : rel = []
              · subst hrel
                simp only [zipAux, if_pos rfl]
                rw [ih _ _ _ hm, hflat]
                simp [prunedNodes, runFlat, List.flatMap_def]
              · simp only [zipAux, if_neg hrel]
                rw [ih _ _ _ hm, hflat]
                simp [prunedNodes, runFlat, List.flatMap_def, hrel]


theorem entriesOf_nil : entriesOf [] = [] := rfl

theorem entriesOf_cons (it : List String × FSTree)
    (rest : List (List String × FSTree)) :
    entriesOf (it :: rest) = (entryOf it).toList ++ entriesOf rest := by
  cases h : entryOf it <;> simp [entriesOf, List.filterMap_cons, h]

theorem filesCount_nil : filesCount [] = 0 := rfl

theorem filesCount_cons (it : List String × FSTree)
    (rest : List (List String × FSTree)) :
    filesCount (it :: rest) =
      (match it.2 with | .file _ => 1 | _ => 0) + filesCount rest := by
  cases it with
  | mk rel t => cases t <;> simp [filesCount, List.countP_cons] <;> omega

theorem goodPrefix_cons_good (it : List String × FSTree)
    (rest : List (List String × FSTree)) (h : isBadNode it.2 = false) :
    goodPrefix (it :: rest) = it :: goodPrefix rest := by
  simp [goodPrefix, List.takeWhile_cons, h]

theorem goodPrefix_cons_bad (it : List String × FSTree)
    (rest : List (List String × FSTree)) (h : isBadNode it.2 = true) :
    goodPrefix (it :: rest) = [] := by
  simp [goodPrefix, List.takeWhile_cons, h]

theorem firstErr_cons_good (it : List String × FSTree)
    (rest : List (List String × FSTree)) (h : isBadNode it.2 = false) :
    firstErr (it :: rest) = firstErr rest := by
  simp [firstErr, List.find?_cons, h]

theorem firstErr_cons_bad (it : List String × FSTree)
    (rest : List (List String × FSTree)) (h : isBadNode it.2 = true) :
    firstErr (it :: rest) = some (errOf it.2) := by
  simp [firstErr, List.find?_cons, h]

/-- When no node of the pop sequence fails, the replayed loop appends
exactly the sequence's entries, counts its files, and reaches
`finish()`. -/
theorem runFlat_ok (nodes : List (List String × FSTree)) :
    ∀ (acc : List Entry) (cnt : Nat), firstErr nodes = none →
    runFlat nodes acc cnt =
      ⟨acc ++ entriesOf nodes, cnt + filesCount nodes, true, none⟩ := by
  induction nodes with
  | nil => intro acc cnt _; simp [runFlat, entriesOf_nil, filesCount_nil]
  | cons it rest ih =>
      intro acc cnt h
      obtain ⟨rel, t⟩ := it
      rw [entriesOf_cons, filesCount_cons]
      cases t with
      | file d =>
          rw [firstErr_cons_good _ _ (by simp [isBadNode])] at h
          simp only [runFlat]
          rw [ih _ _ h]
          simp only [entryOf, Option.toList_some, ZipRun.mk.injEq]
          exact ⟨by simp, by omega, by trivial, by trivial⟩
      | dir cs =>
          rw [firstErr_cons_good _ _ (by simp [isBadNode])] at h
          simp only [runFlat]
          rw [ih _ _ h]
          by_cases hrel : rel = []
          · simp [hrel, entryOf]
          · simp only [entryOf, if_neg hrel, Option.toList_some, ZipRun.mk.injEq]
            exact ⟨by simp, by omega, by trivial, by trivial⟩
      | badFile => rw [firstErr_cons_bad _ _ (by simp [isBadNode])] at h; simp at h
      | badDir => rw [firstErr_cons_bad _ _ (by simp [isBadNode])] at h; simp at h

/-- When some node of the pop sequence fails, the replayed loop stops at
the first failing node: it keeps exactly the entries of the prefix
before it, never reaches `finish()`, and reports that node's error. -/
theorem runFlat_err (nodes : List (List String × FSTree)) :
    ∀ (acc : List Entry) (cnt : Nat) (e : IOErr), firstErr nodes = some e →
    runFlat nodes acc cnt =
      ⟨acc ++ entriesOf (goodPrefix nodes), cnt + filesCount (goodPrefix nodes),
        false, some e⟩ := by
  induction nodes with
  | nil => intro acc cnt e h; simp [firstErr] at h
  | cons it rest ih =>
      intro acc cnt e h
      obtain ⟨rel, t⟩ := it
      cases t with
      | file d =>
          rw [firstErr_cons_good _ _ (by simp [isBadNode])] at h
          rw [goodPrefix_cons_good _ _ (by simp [isBadNode]),
            entriesOf_cons, filesCount_cons]
          simp only [runFlat]
          rw [ih _ _ _ h]
          simp only [entryOf, Option.toList_some, ZipRun.mk.injEq]
          exact ⟨by simp, by omega, by trivial, by trivial⟩
      | dir cs =>
          rw [firstErr_cons_good _ _ (by simp [isBadNode])] at h
          rw [goodPrefix_cons_good _ _ (by simp [isBadNode]),
            entriesOf_cons, filesCount_cons]
          simp only [runFlat]
          rw [ih _ _ _ h]
          by_cases hrel : rel = []
          · simp [hrel, entryOf]
          · simp only [entryOf, if_neg hrel, Option.toList_some, ZipRun.mk.injEq]
            exact ⟨by simp, by omega, by trivial, by trivial⟩
      | badFile =>
          rw [firstErr_cons_bad _ _ (by simp [isBadNode])] at h
          rw [goodPrefix_cons_bad _ _ (by simp [isBadNode])]
          simp only [errOf, Option.some.injEq] at h
          subst h
          simp [runFlat, entriesOf_nil, filesCount_nil]
      | badDir =>
          rw [firstErr_cons_bad _ _ (by simp [isBadNode])] at h
          rw [goodPrefix_cons_bad _ _ (by simp [isBadNode])]
          simp only [errOf, Option.some.injEq] at h
          subst h
          simp [runFlat, entriesOf_nil, filesCount_nil]

/-- Processing a stack prefix whose pop sequence is error-free continues
with the remainder of the stack. -/
theorem runFlat_append_ok (a : List (List String × FSTree)) :
    ∀ (b : List (List String × FSTree)) (acc : List Entry) (cnt : Nat),
    firstErr a = none →
    runFlat (a ++ b) acc cnt =
      runFlat b (acc ++ entriesOf a) (cnt + filesCount a) := by
  induction a with
  | nil => intro b acc cnt _; simp [entriesOf_nil, filesCount_nil]
  | cons it rest ih =>
      intro b acc cnt h
      obtain ⟨rel, t⟩ := it
      rw [entriesOf_cons, filesCount_cons]
      cases t with
      | file d =>
          rw [firstErr_cons_good _ _ (by simp [isBadNode])] at h
          simp only [List.cons_append, runFlat, List.append_eq]
          rw [ih _ _ _ h]
          simp only [entryOf, Option.toList_some]
          rw [List.append_assoc, Nat.add_assoc]
      | dir cs =>
          rw [firstErr_cons_good _ _ (by simp [isBadNode])] at h
          simp only [List.cons_append, runFlat, List.append_eq]
          rw [ih _ _ _ h]
          by_cases hrel : rel = []
          · simp [hrel, entryOf]
          · simp only [entryOf, if_neg hrel, Option.toList_some]
            rw [List.append_assoc, Nat.zero_add]
      | badFile => rw [firstErr_cons_bad _ _ (by simp [isBadNode])] at h; simp at h
      | badDir => rw [firstErr_cons_bad _ _ (by simp [isBadNode])] at h; simp at h

/-- Once the pop sequence of a stack prefix fails, the rest of the stack
is irrelevant: the run aborts within the prefix. -/
theorem runFlat_append_err (a : List (List String × FSTree)) :
    ∀ (b : List (List String × FSTree)) (acc : List Entry) (cnt : Nat) (e : IOErr),
    firstErr a = some e →
    runFlat (a ++ b) acc cnt = runFlat a acc cnt := by
  induction a with
  | nil => intro b acc cnt e h; simp [firstErr] at h
  | cons it rest ih =>
      intro b acc cnt e h
      obtain ⟨rel, t⟩ := it
      cases t with
      | file d =>
          rw [firstErr_cons_good _ _ (by simp [isBadNode])] at h
          simp only [List.cons_append, runFlat, List.append_eq]
          rw [ih _ _ _ _ h]
      | dir cs =>
          rw [firstErr_cons_good _ _ (by simp [isBadNode])] at h
          simp only [List.cons_append, runFlat, List.append_eq]
          rw [ih _ _ _ _ h]
      | badFile => simp [runFlat]
      | badDir => simp [runFlat]

mutual

/-- No failing node anywhere in the tree: every listing and every file
read succeeds. -/
def goodTree : FSTree → Bool
  | .file _ => true
  | .badFile => false
  | .badDir => false
  | .dir cs => goodTreeL cs

/-- `goodTree` on every child of a listing. -/
def goodTreeL : List (String × FSTree) → Bool
  | [] => true
  | c :: r => goodTree c.2 && goodTreeL r

end

/-- A well-formed filename as returned by `read_dir`: non-empty, free of
the path separator, and neither `.` nor `..`. -/
def wfName (s : String) : Bool :=
  !(s = "") && !(s.data.contains '/') && !(s = ".") && !(s = "..")

/-- Well-formed, duplicate-free listing names. -/
def namesOk : List String → Bool
  | [] => true
  | n :: rest => wfName n && !(rest.contains n) && namesOk rest

mutual

/-- Every directory listing in the tree has well-formed, pairwise
distinct child names (the invariant `read_dir` guarantees). -/
def wfTree : FSTree → Bool
  | .dir cs => namesOk (cs.map Prod.fst) && wfTreeL cs
  | _ => true

/-- `wfTree` on every child of a listing. -/
def wfTreeL : List (String × FSTree) → Bool
  | [] => true
  | c :: r => wfTree c.2 && wfTreeL r

end

/-- Every component of a relative path is a well-formed filename. -/
def compsOk (l : List String) : Bool := l.all wfName

theorem goodTreeL_mem {cs : List (String × FSTree)} (h : goodTreeL cs = true) :
    ∀ c ∈ cs, goodTree c.2 = true := by
  induction cs with
  | nil => simp
  | cons c r ih =>
      simp only [goodTreeL, Bool.and_eq_true] at h
      intro x hx
      rcases List.mem_cons.mp hx with hx | hx
      · subst hx; exact h.1
      · exact ih h.2 x hx

theorem wfTreeL_mem {cs : List (String × FSTree)} (h : wfTreeL cs = true) :
    ∀ c ∈ cs, wfTree c.2 = true := by
  induction cs with
  | nil => simp
  | cons c r ih =>
      simp only [wfTreeL, Bool.and_eq_true] at h
      intro x hx
      rcases List.mem_cons.mp hx with hx | hx
      · subst hx; exact h.1
      · exact ih h.2 x hx

theorem namesOk_mem {ns : List String} (h : namesOk ns = true) :
    ∀ n ∈ ns, wfName n = true := by
  induction ns with
  | nil => simp
  | cons n rest ih =>
      simp only [namesOk, Bool.and_eq_true] at h
      intro x hx
      rcases List.mem_cons.mp hx with hx | hx
      · subst hx; exact h.1.1
      · exact ih h.2 x hx

theorem namesOk_head_notMem {n : String} {rest : List String}
    (h : namesOk (n :: rest) = true) : n ∉ rest := by
  simp only [namesOk, Bool.and_eq_true, Bool.not_eq_true'] at h
  intro hmem
  have h1 : rest.contains n = true := List.elem_iff.mpr hmem
  have h2 := h.1.2
  rw [h1] at h2
  simp at h2

theorem namesOk_tail {n : String} {rest : List String}
    (h : namesOk (n :: rest) = true) : namesOk rest = true := by
  simp only [namesOk, Bool.and_eq_true] at h
  exact h.2

/-- With an exclusion test that never matches, the pushed children are
exactly the full listing (what `calculate_target_size` pushes). -/
theorem childStack_false (targetC : List Comp) (rel : List String)
    (cs : List (String × FSTree)) :
    childStack (fun _ => false) targetC rel (.dir cs) =
      (cs.map (fun c => (rel ++ [c.1], c.2))).reverse := by
  simp [childStack]

/-- The `calculate_target_size` loop replayed over an explicit pop
sequence. -/
def runCalcFlat : List (List String × FSTree) → Nat → Except IOErr Nat
  | [], acc => Except.ok acc
  | (_, t) :: rest, acc =>
    match t with
    | .dir _ => runCalcFlat rest acc
    | .badDir => Except.error IOErr.listDirFailed
    | .file d => runCalcFlat rest (acc + d.length)
    | .badFile => Except.error IOErr.openFileFailed

/-- The size-calculator machine runs the flattened (unpruned) pop
sequence. -/
theorem calcAux_eq_runCalcFlat :
    ∀ (fuel : Nat) (stack : List (List String × FSTree)) (acc : Nat),
      stackMeasure stack ≤ fuel →
      calcAux fuel stack acc =
        runCalcFlat
          (stack.flatMap (fun it => prunedNodes (fun _ => false) [] it.1 it.2))
          acc := by
  intro fuel
  induction fuel with
  | zero =>
      intro stack acc h
      cases stack with
      | nil => rfl
      | cons it rest =>
          exfalso
          have := FSTree.size_pos it.2
          simp [stackMeasure] at h
          omega
  | succ n ih =>
      intro stack acc h
      cases stack with
      | nil => rfl
      | cons it rest =>
          obtain ⟨rel, t⟩ := it
          cases t with
          | file d =>
              simp only [calcAux, List.flatMap_cons, prunedNodes,
                List.cons_append, runCalcFlat, List.nil_append]
              exact ih rest _ (by simp [stackMeasure, FSTree.size] at h ⊢; omega)
          | badFile => simp [calcAux, prunedNodes, runCalcFlat]
          | badDir => simp [calcAux, prunedNodes, runCalcFlat]
          | dir cs =>
              have hm : stackMeasure
                  ((cs.map (fun c => (rel ++ [c.1], c.2))).reverse ++ rest) ≤ n := by
                have h1 := stackMeasure_childStack (fun _ => false) [] rel (.dir cs)
                rw [childStack_false] at h1
                rw [stackMeasure_append]
                simp only [stackMeasure] at h
                omega
              have hflat :
                  ((cs.map (fun c => (rel ++ [c.1], c.2))).reverse ++ rest).flatMap
                      (fun it => prunedNodes (fun _ => false) [] it.1 it.2) =
                    prunedKids (fun _ => false) [] rel cs ++
                      rest.flatMap (fun it => prunedNodes (fun _ => false) [] it.1 it.2) := by
                rw [List.flatMap_append, ← childStack_false [] rel cs,
                  childStack_flatMap_prunedNodes]
              simp only [calcAux]
              rw [ih _ _ hm, hflat]
              simp [prunedNodes, runCalcFlat, List.flatMap_def]

/-- Sum of the byte lengths of the file nodes of a pop sequence. -/
def sizesOf : List (List String × FSTree) → Nat
  | [] => 0
  | (_, .file d) :: r => d.length + sizesOf r
  | _ :: r => sizesOf r

theorem runCalcFlat_ok (nodes : List (List String × FSTree)) :
    ∀ acc : Nat, firstErr nodes = none →
    runCalcFlat nodes acc = Except.ok (acc + sizesOf nodes) := by
  induction nodes with
  | nil => intro acc _; simp [runCalcFlat, sizesOf]
  | cons it rest ih =>
      intro acc h
      obtain ⟨rel, t⟩ := it
      cases t with
      | file d =>
          rw [firstErr_cons_good _ _ (by simp [isBadNode])] at h
          simp only [runCalcFlat, sizesOf]
          rw [ih _ h]
          congr 1
          omega
      | dir cs =>
          rw [firstErr_cons_good _ _ (by simp [isBadNode])] at h
          simp only [runCalcFlat, sizesOf]
          exact ih _ h
      | badFile => rw [firstErr_cons_bad _ _ (by simp [isBadNode])] at h; simp at h
      | badDir => rw [firstErr_cons_bad _ _ (by simp [isBadNode])] at h; simp at h

mutual

/-- In a tree with no failing nodes, no popped node fails. -/
theorem prunedNodes_good (excl? : List Comp → Bool) (targetC : List Comp) :
    ∀ (rel : List String) (t : FSTree), goodTree t = true →
      ∀ it ∈ prunedNodes excl? targetC rel t, isBadNode it.2 = false
  | rel, .file d => by
      intro _ it hit
      simp only [prunedNodes, List.mem_singleton] at hit
      subst hit
      simp [isBadNode]
  | rel, .badFile => by intro h; simp [goodTree] at h
  | rel, .badDir => by intro h; simp [goodTree] at h
  | rel, .dir cs => by
      intro hg it hit
      simp only [prunedNodes, List.mem_cons] at hit
      rcases hit with hit | hit
      · subst hit; simp [isBadNode]
      · simp only [goodTree] at hg
        exact prunedKids_good excl? targetC rel cs hg it hit

/-- In a listing of good subtrees, no popped node fails. -/
theorem prunedKids_good (excl? : List Comp → Bool) (targetC : List Comp) :
    ∀ (rel : List String) (cs : List (String × FSTree)), goodTreeL cs = true →
      ∀ it ∈ prunedKids excl? targetC rel cs, isBadNode it.2 = false
  | rel, [] => by intro _ it hit; simp [prunedKids] at hit
  | rel, c :: rest => by
      intro hg it hit
      simp only [goodTreeL, Bool.and_eq_true] at hg
      simp only [prunedKids, List.mem_append] at hit
      rcases hit with hit | hit
      · exact prunedKids_good excl? targetC rel rest hg.2 it hit
      · by_cases hx : excl? (listingPath targetC (rel ++ [c.1])) = true
        · simp [hx] at hit
        · simp only [Bool.not_eq_true] at hx
          rw [if_neg (by simp [hx])] at hit
          exact prunedNodes_good excl? targetC (rel ++ [c.1]) c.2 hg.1 it hit

end

/-- The pop sequence of a good tree is error-free. -/
theorem firstErr_prunedNodes_none (excl? : List Comp → Bool)
    (targetC : List Comp) (rel : List String) (t : FSTree)
    (hg : goodTree t = true) :
    firstErr (prunedNodes excl? targetC rel t) = none := by
  have hfind : List.find? (fun it => isBadNode it.2)
      (prunedNodes excl? targetC rel t) = none := by
    rw [List.find?_eq_none]
    intro it hit
    simp [prunedNodes_good excl? targetC rel t hg it hit]
  unfold firstErr
  rw [hfind]
  rfl

theorem sizesOf_append (a b : List (List String × FSTree)) :
    sizesOf (a ++ b) = sizesOf a + sizesOf b := by
  induction a with
  | nil => simp [sizesOf]
  | cons it rest ih =>
      obtain ⟨rel, t⟩ := it
      cases t <;> simp [sizesOf, ih] <;> omega

mutual

/-- Over a full (unpruned) traversal, the file bytes seen are the whole
tree's. -/
theorem sizesOf_prunedNodes (targetC : List Comp) :
    ∀ (rel : List String) (t : FSTree),
      sizesOf (prunedNodes (fun _ => false) targetC rel t) = totalSize t
  | rel, .file d => by simp [prunedNodes, sizesOf, totalSize]
  | rel, .badFile => by simp [prunedNodes, sizesOf, totalSize]
  | rel, .badDir => by simp [prunedNodes, sizesOf, totalSize]
  | rel, .dir cs => by
      simp only [prunedNodes, sizesOf, totalSize]
      exact sizesOf_prunedKids targetC rel cs

/-- List version of `sizesOf_prunedNodes`. -/
theorem sizesOf_prunedKids (targetC : List Comp) :
    ∀ (rel : List String) (cs : List (String × FSTree)),
      sizesOf (prunedKids (fun _ => false) targetC rel cs) = totalSizeL cs
  | rel, [] => by simp [prunedKids, sizesOf, totalSizeL]
  | rel, c :: rest => by
      simp only [prunedKids, if_neg (by simp : ¬((fun _ => false)
        (listingPath targetC (rel ++ [c.1])) = true))]
      rw [sizesOf_append]
      rw [sizesOf_prunedKids targetC rel rest,
        sizesOf_prunedNodes targetC (rel ++ [c.1]) c.2]
      simp [totalSizeL]
      omega

end

mutual

/-- Every popped relative path extends the subtree's root path. -/
theorem prunedNodes_prefix (excl? : List Comp → Bool) (targetC : List Comp) :
    ∀ (rel : List String) (t : FSTree),
      ∀ it ∈ prunedNodes excl? targetC rel t, rel <+: it.1
  | rel, .file d => by
      intro it hit
      simp only [prunedNodes, List.mem_singleton] at hit
      subst hit
      exact List.prefix_refl _
  | rel, .badFile => by
      intro it hit
      simp only [prunedNodes, List.mem_singleton] at hit
      subst hit
      exact List.prefix_refl _
  | rel, .badDir => by
      intro it hit
      simp only [prunedNodes, List.mem_singleton] at hit
      subst hit
      exact List.prefix_refl _
  | rel, .dir cs => by
      intro it hit
      simp only [prunedNodes, List.mem_cons] at hit
      rcases hit with h | h
      · subst h; exact List.prefix_refl _
      · obtain ⟨nc, _, hpre⟩ := prunedKids_prefix excl? targetC rel cs it h
        exact (List.prefix_append rel [nc.1]).trans hpre

/-- Every path popped from a listing's subtrees extends the path of one
of the listed children. -/
theorem prunedKids_prefix (excl? : List Comp → Bool) (targetC : List Comp) :
    ∀ (rel : List String) (cs : List (String × FSTree)),
      ∀ it ∈ prunedKids excl? targetC rel cs,
        ∃ nc ∈ cs, (rel ++ [nc.1]) <+: it.1
  | rel, [] => by intro it hit; simp [prunedKids] at hit
  | rel, c :: rest => by
      intro it hit
      simp only [prunedKids, List.mem_append] at hit
      rcases hit with h | h
      · obtain ⟨nc, hnc, hpre⟩ := prunedKids_prefix excl? targetC rel rest it h
        exact ⟨nc, List.mem_cons_of_mem _ hnc, hpre⟩
      · by_cases hx : excl? (listingPath targetC (rel ++ [c.1])) = true
        · simp [hx] at h
        · simp only [Bool.not_eq_true] at hx
          rw [if_neg (by simp [hx])] at h
          exact ⟨c, List.mem_cons_self _ _,
            prunedNodes_prefix excl? targetC (rel ++ [c.1]) c.2 it h⟩

end

/-- Two one-component extensions of the same path that are both prefixes
of a common path have the same added component. -/
theorem snoc_prefix_eq {α : Type} {rel p : List α} {a b : α}
    (h1 : (rel ++ [a]) <+: p) (h2 : (rel ++ [b]) <+: p) : a = b := by
  have hle : (rel ++ [a]).length ≤ (rel ++ [b]).length := by simp
  have hpre := List.prefix_of_prefix_length_le h1 h2 hle
  have heq := List.IsPrefix.eq_of_length hpre (by simp)
  have := List.append_cancel_left heq
  simpa using this

/-- A strict extension is strictly longer. -/
theorem prefix_ne_length_lt {α : Type} {rel p : List α}
    (h : rel <+: p) (hne : rel ≠ p) : rel.length < p.length := by
  rcases Nat.lt_or_ge rel.length p.length with h' | h'
  · exact h'
  · exact absurd (List.IsPrefix.eq_of_length h
      (Nat.le_antisymm (List.IsPrefix.length_le h) h')) hne

mutual

/-- In a well-formed tree no relative path is popped twice. -/
theorem prunedNodes_fst_nodup (excl? : List Comp → Bool) (targetC : List Comp) :
    ∀ (rel : List String) (t : FSTree), wfTree t = true →
      ((prunedNodes excl? targetC rel t).map Prod.fst).Nodup
  | rel, .file _ => by intro _; simp [prunedNodes]
  | rel, .badFile => by intro _; simp [prunedNodes]
  | rel, .badDir => by intro _; simp [prunedNodes]
  | rel, .dir cs => by
      intro hw
      simp only [wfTree, Bool.and_eq_true] at hw
      simp only [prunedNodes, List.map_cons]
      rw [List.nodup_cons]
      constructor
      · intro hmem
        obtain ⟨it, hit, hfst⟩ := List.mem_map.mp hmem
        obtain ⟨nc, _, hpre⟩ := prunedKids_prefix excl? targetC rel cs it hit
        rw [hfst] at hpre
        have := List.IsPrefix.length_le hpre
        simp at this
      · exact prunedKids_fst_nodup excl? targetC rel cs hw.2 hw.1

/-- In a well-formed listing no relative path is popped twice across the
children's subtrees. -/
theorem prunedKids_fst_nodup (excl? : List Comp → Bool) (targetC : List Comp) :
    ∀ (rel : List String) (cs : List (String × FSTree)), wfTreeL cs = true →
      namesOk (cs.map Prod.fst) = true →
      ((prunedKids excl? targetC rel cs).map Prod.fst).Nodup
  | rel, [] => by intro _ _; simp [prunedKids]
  | rel, c :: rest => by
      intro hw hn
      simp only [wfTreeL, Bool.and_eq_true] at hw
      simp only [List.map_cons] at hn
      have hn1 : c.1 ∉ rest.map Prod.fst := namesOk_head_notMem hn
      have hn2 : namesOk (rest.map Prod.fst) = true := namesOk_tail hn
      simp only [prunedKids, List.map_append]
      by_cases hx : excl? (listingPath targetC (rel ++ [c.1])) = true
      · rw [if_pos hx]
        simpa using prunedKids_fst_nodup excl? targetC rel rest hw.2 hn2
      · simp only [Bool.not_eq_true] at hx
        rw [if_neg (by simp [hx])]
        refine List.Nodup.append
          (prunedKids_fst_nodup excl? targetC rel rest hw.2 hn2)
          (prunedNodes_fst_nodup excl? targetC (rel ++ [c.1]) c.2 hw.1) ?_
        rw [List.disjoint_left]
        intro q hqA hqB
        obtain ⟨itA, hitA, hfstA⟩ := List.mem_map.mp hqA
        obtain ⟨itB, hitB, hfstB⟩ := List.mem_map.mp hqB
        obtain ⟨nc, hnc, hpreA⟩ := prunedKids_prefix excl? targetC rel rest itA hitA
        have hpreB := prunedNodes_prefix excl? targetC (rel ++ [c.1]) c.2 itB hitB
        rw [hfstA] at hpreA
        rw [hfstB] at hpreB
        have : nc.1 = c.1 := snoc_prefix_eq hpreA hpreB
        exact hn1 (this ▸ List.mem_map_of_mem Prod.fst hnc)

end

mutual

/-- The parent of every popped non-root node is popped first: if
`p ++ [n]` occurs in the pop order of the subtree rooted at `rel`
(with `rel` a prefix of `p`), then `p` occurs too, and before it. -/
theorem prunedNodes_parent_before (excl? : List Comp → Bool) (targetC : List Comp) :
    ∀ (rel : List String) (t : FSTree) (p : List String) (n : String),
      rel <+: p → (p ++ [n]) ∈ (prunedNodes excl? targetC rel t).map Prod.fst →
      [p, p ++ [n]].Sublist ((prunedNodes excl? targetC rel t).map Prod.fst)
  | rel, .file d => by
      intro p n hpre hmem
      exfalso
      simp only [prunedNodes, List.map_cons, List.map_nil, List.mem_singleton] at hmem
      have := List.IsPrefix.length_le hpre
      have hl := congrArg List.length hmem
      simp at hl
      omega
  | rel, .badFile => by
      intro p n hpre hmem
      exfalso
      simp only [prunedNodes, List.map_cons, List.map_nil, List.mem_singleton] at hmem
      have := List.IsPrefix.length_le hpre
      have hl := congrArg List.length hmem
      simp at hl
      omega
  | rel, .badDir => by
      intro p n hpre hmem
      exfalso
      simp only [prunedNodes, List.map_cons, List.map_nil, List.mem_singleton] at hmem
      have := List.IsPrefix.length_le hpre
      have hl := congrArg List.length hmem
      simp at hl
      omega
  | rel, .dir cs => by
      intro p n hpre hmem
      simp only [prunedNodes, List.map_cons, List.mem_cons] at hmem
      rcases hmem with h | h
      · exfalso
        have := List.IsPrefix.length_le hpre
        have hl := congrArg List.length h
        simp at hl
        omega
      · by_cases hp : p = rel
        · subst hp
          simp only [prunedNodes, List.map_cons]
          exact List.Sublist.cons₂ p (List.singleton_sublist.mpr h)
        · have hne : rel ≠ p := fun he => hp he.symm
          have hsub := prunedKids_parent_before excl? targetC rel cs p n hpre hne h
          simp only [prunedNodes, List.map_cons]
          exact List.Sublist.cons rel hsub

/-- List version of `prunedNodes_parent_before`. -/
theorem prunedKids_parent_before (excl? : List Comp → Bool) (targetC : List Comp) :
    ∀ (rel : List String) (cs : List (String × FSTree)) (p : List String) (n : String),
      rel <+: p → rel ≠ p →
      (p ++ [n]) ∈ (prunedKids excl? targetC rel cs).map Prod.fst →
      [p, p ++ [n]].Sublist ((prunedKids excl? targetC rel cs).map Prod.fst)
  | rel, [], p, n => by intro _ _ hmem; simp [prunedKids] at hmem
  | rel, c :: rest, p, n => by
      intro hpre hne hmem
      simp only [prunedKids, List.map_append, List.mem_append] at hmem ⊢
      rcases hmem with h | h
      · exact (prunedKids_parent_before excl? targetC rel rest p n hpre hne h).trans
          (List.sublist_append_left _ _)
      · by_cases hx : excl? (listingPath targetC (rel ++ [c.1])) = true
        · rw [if_pos hx] at h ⊢
          simp at h
        · simp only [Bool.not_eq_true] at hx
          rw [if_neg (by simp [hx])] at h ⊢
          obtain ⟨itB, hitB, hfstB⟩ := List.mem_map.mp h
          have hqpre := prunedNodes_prefix excl? targetC (rel ++ [c.1]) c.2 itB hitB
          rw [hfstB] at hqpre
          have hlen : (rel ++ [c.1]).length ≤ p.length := by
            have := prefix_ne_length_lt hpre hne
            simp only [List.length_append, List.length_cons, List.length_nil]
            omega
          have hp' : (rel ++ [c.1]) <+: p :=
            List.prefix_of_prefix_length_le hqpre (List.prefix_append p [n]) (by simpa using hlen)
          exact (prunedNodes_parent_before excl? targetC (rel ++ [c.1]) c.2 p n hp' h).trans
            (List.sublist_append_right _ _)

end

theorem splitCharList_ne_nil (sep : Char) (xs : List Char) :
    splitCharList sep xs ≠ [] := by
  cases xs with
  | nil => simp [splitCharList]
  | cons x xs =>
      simp only [splitCharList]
      cases h : splitCharList sep xs with
      | nil => simp
      | cons p ps =>
          by_cases hx : x = sep <;> simp [hx]

theorem splitCharList_no_sep (sep : Char) :
    ∀ xs : List Char, sep ∉ xs → splitCharList sep xs = [xs] := by
  intro xs
  induction xs with
  | nil => intro _; rfl
  | cons x r ih =>
      intro h
      have hx : x ≠ sep := fun he => h (he ▸ List.mem_cons_self x r)
      have hr : sep ∉ r := fun hm => h (List.mem_cons_of_mem _ hm)
      simp only [splitCharList, ih hr]
      simp [hx]

theorem splitCharList_sep_cons (sep : Char) :
    ∀ xs ys : List Char, sep ∉ xs →
      splitCharList sep (xs ++ sep :: ys) = xs :: splitCharList sep ys := by
  intro xs
  induction xs with
  | nil =>
      intro ys _
      simp only [List.nil_append, splitCharList]
      cases h : splitCharList sep ys with
      | nil => exact absurd h (splitCharList_ne_nil sep ys)
      | cons p ps => simp
  | cons x r ih =>
      intro ys h
      have hx : x ≠ sep := fun he => h (he ▸ List.mem_cons_self x r)
      have hr : sep ∉ r := fun hm => h (List.mem_cons_of_mem _ hm)
      simp only [List.cons_append, splitCharList, List.append_eq]
      rw [ih ys hr]
      simp [hx]

theorem renderComps_data_cons (c₁ c₂ : String) (rest : List String) :
    (renderComps (c₁ :: c₂ :: rest)).data =
      c₁.data ++ '/' :: (renderComps (c₂ :: rest)).data := by
  show (c₁ ++ "/" ++ renderComps (c₂ :: rest)).data = _
  rw [String.data_append, String.data_append]
  have hs : ("/").data = ['/'] := by decide
  rw [hs, List.append_assoc]
  rfl

/-- Splitting a rendered well-formed path on the separator recovers its
components. -/
theorem splitCharList_renderComps :
    ∀ (l : List String), (∀ s ∈ l, wfName s = true) → l ≠ [] →
      splitCharList '/' (renderComps l).data = l.map String.data := by
  intro l
  induction l with
  | nil => intro _ h; exact absurd rfl h
  | cons c r ih =>
      intro hwf _
      have hc : '/' ∉ c.data := by
        have hw := hwf c (List.mem_cons_self c r)
        simp only [wfName, Bool.and_eq_true, Bool.not_eq_true'] at hw
        intro hmem
        have hcontr : c.data.contains '/' = true := List.elem_iff.mpr hmem
        have h2 := hw.1.1.2
        rw [hcontr] at h2
        simp at h2
      cases r with
      | nil =>
          simp only [renderComps, List.map_cons, List.map_nil]
          exact splitCharList_no_sep '/' c.data hc
      | cons c₂ rest =>
          rw [renderComps_data_cons]
          rw [splitCharList_sep_cons '/' c.data _ hc]
          rw [ih (fun s hs => hwf s (List.mem_cons_of_mem _ hs)) (by simp)]
          rfl

theorem asString_data (s : String) : s.data.asString = s := rfl

theorem map_data_asString (l : List String) :
    (l.map String.data).map List.asString = l := by
  induction l with
  | nil => rfl
  | cons c r ih => simp only [List.map_cons, asString_data, ih]

theorem data_inj {s t : String} (h : s.data = t.data) : s = t := by
  cases s
  cases t
  exact congrArg String.mk h

/-- Rendering is injective on well-formed component lists. -/
theorem renderComps_inj : ∀ (l₁ l₂ : List String),
    (∀ s ∈ l₁, wfName s = true) → (∀ s ∈ l₂, wfName s = true) →
    renderComps l₁ = renderComps l₂ → l₁ = l₂ := by
  have key : ∀ (l : List String), (∀ s ∈ l, wfName s = true) → l ≠ [] →
      (renderComps l).data ≠ [] := by
    intro l hwf hne
    cases l with
    | nil => exact absurd rfl hne
    | cons c r =>
        have hc : c.data ≠ [] := by
          have := hwf c (List.mem_cons_self c r)
          simp only [wfName, Bool.and_eq_true, Bool.not_eq_true'] at this
          intro hd
          have hce : c = "" := data_inj (by simpa using hd)
          rw [hce] at this
          simp at this
        cases r with
        | nil => simpa [renderComps] using hc
        | cons c₂ rest =>
            rw [renderComps_data_cons]
            intro h
            exact hc (List.append_eq_nil.mp h).1
  intro l₁ l₂ h₁ h₂ heq
  by_cases e₁ : l₁ = []
  · by_cases e₂ : l₂ = []
    · rw [e₁, e₂]
    · exfalso
      rw [e₁] at heq
      exact key l₂ h₂ e₂ (by rw [← heq]; rfl)
  · by_cases e₂ : l₂ = []
    · exfalso
      rw [e₂] at heq
      exact key l₁ h₁ e₁ (by rw [heq]; rfl)
    · have r₁ := splitCharList_renderComps l₁ h₁ e₁
      have r₂ := splitCharList_renderComps l₂ h₂ e₂
      rw [heq] at r₁
      rw [r₁] at r₂
      have := congrArg (List.map List.asString) r₂
      rw [map_data_asString, map_data_asString] at this
      exact this

/-- A rendered well-formed non-empty path is not the empty string. -/
theorem renderComps_ne_empty (l : List String)
    (hwf : ∀ s ∈ l, wfName s = true) (hne : l ≠ []) : renderComps l ≠ "" := by
  intro h
  have := renderComps_inj l [] hwf (by simp) (by rw [h]; rfl)
  exact hne this

/-- A rendered well-formed path is never the bare separator. -/
theorem renderComps_ne_slash (l : List String)
    (hwf : ∀ s ∈ l, wfName s = true) : renderComps l ≠ ("/") := by
  intro h
  by_cases hne : l = []
  · rw [hne] at h
    exact absurd (congrArg String.data h) (by decide)
  · have r := splitCharList_renderComps l hwf hne
    rw [h] at r
    have : splitCharList '/' ("/").data = [[], []] := by decide
    rw [this] at r
    have hcongr := congrArg (List.map List.asString) r
    rw [map_data_asString] at hcongr
    have hl : l = [("" : String), ""] := by rw [← hcongr]; rfl
    have hwf0 := hwf (("")) (by rw [hl]; exact List.mem_cons_self _ _)
    simp [wfName] at hwf0

theorem append_slash_inj {s t : String} (h : s ++ ("/") = t ++ ("/")) : s = t := by
  have hd := congrArg String.data h
  rw [String.data_append, String.data_append] at hd
  exact data_inj (List.append_cancel_right hd)

theorem append_slash_ne_empty (s : String) : s ++ ("/") ≠ "" := by
  intro h
  have hd := congrArg String.data h
  rw [String.data_append] at hd
  have : ("/").data = ['/'] := by decide
  rw [this] at hd
  simp at hd

theorem append_slash_eq_slash {s : String} (h : s ++ ("/") = ("/")) : s = "" := by
  have : s ++ ("/") = ("" : String) ++ ("/") := by
    rw [h]
    rfl
  exact append_slash_inj this

/-- Distinct well-formed relative paths never yield the same archive
entry. -/
theorem entryOf_inj {p q : List String} {u v : FSTree} {e : Entry}
    (hp : compsOk p = true) (hq : compsOk q = true)
    (h₁ : entryOf (p, u) = some e) (h₂ : entryOf (q, v) = some e) : p = q := by
  have hp' : ∀ s ∈ p, wfName s = true := by
    intro s hs
    exact List.all_eq_true.mp hp s hs
  have hq' : ∀ s ∈ q, wfName s = true := by
    intro s hs
    exact List.all_eq_true.mp hq s hs
  cases u with
  | file d =>
      simp only [entryOf] at h₁
      cases v with
      | file d' =>
          simp only [entryOf] at h₂
          rw [← h₂] at h₁
          simp only [Option.some.injEq, Entry.file.injEq] at h₁
          exact renderComps_inj p q hp' hq' h₁.1
      | dir cs =>
          simp only [entryOf] at h₂
          by_cases hrel : q = []
          · rw [if_pos hrel] at h₂; exact absurd h₂ (by simp)
          · rw [if_neg hrel] at h₂
            rw [← h₂] at h₁
            simp at h₁
      | badFile => simp [entryOf] at h₂
      | badDir => simp [entryOf] at h₂
  | dir cs =>
      simp only [entryOf] at h₁
      by_cases hrel : p = []
      · rw [if_pos hrel] at h₁; exact absurd h₁ (by simp)
      · rw [if_neg hrel] at h₁
        cases v with
        | file d' =>
            simp only [entryOf] at h₂
            rw [← h₂] at h₁
            simp at h₁
        | dir cs' =>
            simp only [entryOf] at h₂
            by_cases hrel' : q = []
            · rw [if_pos hrel'] at h₂; exact absurd h₂ (by simp)
            · rw [if_neg hrel'] at h₂
              rw [← h₂] at h₁
              simp only [Option.some.injEq, Entry.directory.injEq] at h₁
              exact renderComps_inj p q hp' hq' (append_slash_inj h₁)
        | badFile => simp [entryOf] at h₂
        | badDir => simp [entryOf] at h₂
  | badFile => simp [entryOf] at h₁
  | badDir => simp [entryOf] at h₁

mutual

/-- Every popped relative path consists of well-formed filenames. -/
theorem prunedNodes_compsOk (excl? : List Comp → Bool) (targetC : List Comp) :
    ∀ (rel : List String) (t : FSTree), wfTree t = true → compsOk rel = true →
      ∀ it ∈ prunedNodes excl? targetC rel t, compsOk it.1 = true
  | rel, .file d => by
      intro _ hrel it hit
      simp only [prunedNodes, List.mem_singleton] at hit
      subst hit
      exact hrel
  | rel, .badFile => by
      intro _ hrel it hit
      simp only [prunedNodes, List.mem_singleton] at hit
      subst hit
      exact hrel
  | rel, .badDir => by
      intro _ hrel it hit
      simp only [prunedNodes, List.mem_singleton] at hit
      subst hit
      exact hrel
  | rel, .dir cs => by
      intro hw hrel it hit
      simp only [wfTree, Bool.and_eq_true] at hw
      simp only [prunedNodes, List.mem_cons] at hit
      rcases hit with h | h
      · subst h; exact hrel
      · exact prunedKids_compsOk excl? targetC rel cs hw.2
          (namesOk_mem hw.1) hrel it h

/-- List version of `prunedNodes_compsOk`. -/
theorem prunedKids_compsOk (excl? : List Comp → Bool) (targetC : List Comp) :
    ∀ (rel : List String) (cs : List (String × FSTree)), wfTreeL cs = true →
      (∀ n ∈ cs.map Prod.fst, wfName n = true) → compsOk rel = true →
      ∀ it ∈ prunedKids excl? targetC rel cs, compsOk it.1 = true
  | rel, [] => by intro _ _ _ it hit; simp [prunedKids] at hit
  | rel, c :: rest => by
      intro hw hn hrel it hit
      simp only [wfTreeL, Bool.and_eq_true] at hw
      simp only [prunedKids, List.mem_append] at hit
      rcases hit with h | h
      · exact prunedKids_compsOk excl? targetC rel rest hw.2
          (fun n hn' => hn n (by simp [hn'])) hrel it h
      · by_cases hx : excl? (listingPath targetC (rel ++ [c.1])) = true
        · simp [hx] at h
        · simp only [Bool.not_eq_true] at hx
          rw [if_neg (by simp [hx])] at h
          have hrel' : compsOk (rel ++ [c.1]) = true := by
            simp only [compsOk, List.all_append, Bool.and_eq_true]
            refine ⟨hrel, ?_⟩
            simp only [List.all_cons, List.all_nil, Bool.and_true]
            exact hn c.1 (by simp)
          exact prunedNodes_compsOk excl? targetC (rel ++ [c.1]) c.2 hw.1 hrel' it h

end

/-- Over a pop sequence of distinct, well-formed relative paths, the
written entries are pairwise distinct. -/
theorem entriesOf_nodup (nodes : List (List String × FSTree))
    (hnd : (nodes.map Prod.fst).Nodup)
    (hok : ∀ it ∈ nodes, compsOk it.1 = true) : (entriesOf nodes).Nodup := by
  induction nodes with
  | nil => simp [entriesOf]
  | cons it rest ih =>
      simp only [List.map_cons, List.nodup_cons] at hnd
      rw [entriesOf_cons]
      cases he : entryOf it with
      | none =>
          simp only [Option.toList_none, List.nil_append]
          exact ih hnd.2 (fun x hx => hok x (List.mem_cons_of_mem _ hx))
      | some e =>
          simp only [Option.toList_some, List.singleton_append, List.nodup_cons]
          constructor
          · intro hmem
            obtain ⟨it', hit', he'⟩ := List.mem_filterMap.mp hmem
            obtain ⟨p, u⟩ := it
            obtain ⟨q, v⟩ := it'
            have := entryOf_inj (hok (p, u) (List.mem_cons_self _ _))
              (hok (q, v) (List.mem_cons_of_mem _ hit')) he he'
            exact hnd.1 (this ▸ List.mem_map_of_mem Prod.fst hit')
          · exact ih hnd.2 (fun x hx => hok x (List.mem_cons_of_mem _ hx))

/-- The pop sequence of a `zip_files` run: the pruned traversal of the
tree rooted at the target, with `is_excluded_path` as the filter. -/
def zipNodes (cfg : CliArgs) (t : FSTree) : List (List String × FSTree) :=
  prunedNodes (fun p => is_excluded_path cfg.excluded p) (parsePath cfg.target) [] t

/-- The relative paths `zip_files` pops, in pop order. -/
def zipVisits (cfg : CliArgs) (t : FSTree) : List (List String) :=
  (zipNodes cfg t).map Prod.fst

/-- The relative paths `calculate_target_size` pops, in pop order (its
walk never filters). -/
def calcVisits (t : FSTree) : List (List String) :=
  (prunedNodes (fun _ => false) [] [] t).map Prod.fst

/-- `zip_files` replayed as its pop sequence. -/
theorem zip_files_eq_runFlat (cfg : CliArgs) (t : FSTree) :
    zip_files cfg t = runFlat (zipNodes cfg t) [] 0 := by
  unfold zip_files zipNodes
  rw [zipAux_eq_runFlat _ _ _ _ _ _ (Nat.le_refl _)]
  simp

/-- On an error-free tree, `zip_files` writes exactly the entries of its
pop sequence and finishes. -/
theorem zip_files_good (cfg : CliArgs) (t : FSTree) (hg : goodTree t = true) :
    zip_files cfg t =
      ⟨entriesOf (zipNodes cfg t), filesCount (zipNodes cfg t), true, none⟩ := by
  rw [zip_files_eq_runFlat]
  have hfe : firstErr (zipNodes cfg t) = none :=
    firstErr_prunedNodes_none _ _ _ _ hg
  rw [runFlat_ok _ _ _ hfe]
  simp

/-- `calculate_target_size` replayed as its pop sequence. -/
theorem calculate_target_size_eq_runCalcFlat (cfg : CliArgs) (t : FSTree) :
    calculate_target_size cfg t =
      runCalcFlat (prunedNodes (fun _ => false) [] [] t) 0 := by
  unfold calculate_target_size
  rw [calcAux_eq_runCalcFlat _ _ _ (Nat.le_refl _)]
  simp

/-- A subtree's root is the first node popped from it. -/
theorem prunedNodes_self_mem (excl? : List Comp → Bool) (targetC : List Comp)
    (rel : List String) (t : FSTree) :
    (rel, t) ∈ prunedNodes excl? targetC rel t := by
  cases t <;> simp [prunedNodes]

/-- A node popped from a kept child's subtree is popped from the
listing. -/
theorem prunedKids_mem_of_child (excl? : List Comp → Bool) (targetC : List Comp)
    (rel : List String) (cs : List (String × FSTree)) (nc : String × FSTree)
    (hnc : nc ∈ cs)
    (hkeep : excl? (listingPath targetC (rel ++ [nc.1])) = false)
    (it : List String × FSTree)
    (hit : it ∈ prunedNodes excl? targetC (rel ++ [nc.1]) nc.2) :
    it ∈ prunedKids excl? targetC rel cs := by
  induction cs with
  | nil => simp at hnc
  | cons c rest ih =>
      simp only [prunedKids, List.mem_append]
      rcases List.mem_cons.mp hnc with h | h
      · subst h
        rw [if_neg (by simp [hkeep])]
        exact Or.inr hit
      · exact Or.inl (ih h)

/-- `zipVisits` with the `[]`-seeded root. -/
theorem zipVisits_def (cfg : CliArgs) (t : FSTree) :
    zipVisits cfg t = (zipNodes cfg t).map Prod.fst := rfl

mutual

/-- If some node at a path extending `p ++ [nm]` is popped, then the
entry at `p ++ [nm]` passed the exclusion test when its parent's listing
was scanned: excluded entries are never pushed, so nothing at or below
them is ever popped. -/
theorem prunedNodes_ext_kept (excl? : List Comp → Bool) (targetC : List Comp) :
    ∀ (r0 : List String) (t : FSTree) (q : List String) (u : FSTree)
      (p : List String) (nm : String),
      (q, u) ∈ prunedNodes excl? targetC r0 t → r0 <+: p → (p ++ [nm]) <+: q →
      excl? (listingPath targetC (p ++ [nm])) = false
  | r0, .file d => by
      intro q u p nm hq hr0 hpq
      exfalso
      simp only [prunedNodes, List.mem_singleton, Prod.mk.injEq] at hq
      have h1 := List.IsPrefix.length_le hr0
      have h2 := List.IsPrefix.length_le hpq
      rw [hq.1] at h2
      simp at h2
      omega
  | r0, .badFile => by
      intro q u p nm hq hr0 hpq
      exfalso
      simp only [prunedNodes, List.mem_singleton, Prod.mk.injEq] at hq
      have h1 := List.IsPrefix.length_le hr0
      have h2 := List.IsPrefix.length_le hpq
      rw [hq.1] at h2
      simp at h2
      omega
  | r0, .badDir => by
      intro q u p nm hq hr0 hpq
      exfalso
      simp only [prunedNodes, List.mem_singleton, Prod.mk.injEq] at hq
      have h1 := List.IsPrefix.length_le hr0
      have h2 := List.IsPrefix.length_le hpq
      rw [hq.1] at h2
      simp at h2
      omega
  | r0, .dir cs => by
      intro q u p nm hq hr0 hpq
      simp only [prunedNodes, List.mem_cons, Prod.mk.injEq] at hq
      rcases hq with ⟨hq1, _⟩ | hq
      · exfalso
        have h1 := List.IsPrefix.length_le hr0
        have h2 := List.IsPrefix.length_le hpq
        rw [hq1] at h2
        simp at h2
        omega
      · exact prunedKids_ext_kept excl? targetC r0 cs q u p nm hq hr0 hpq

/-- List version of `prunedNodes_ext_kept`. -/
theorem prunedKids_ext_kept (excl? : List Comp → Bool) (targetC : List Comp) :
    ∀ (r0 : List String) (cs : List (String × FSTree)) (q : List String)
      (u : FSTree) (p : List String) (nm : String),
      (q, u) ∈ prunedKids excl? targetC r0 cs → r0 <+: p → (p ++ [nm]) <+: q →
      excl? (listingPath targetC (p ++ [nm])) = false
  | r0, [] => by intro q u p nm hq _ _; simp [prunedKids] at hq
  | r0, c :: rest => by
      intro q u p nm hq hr0 hpq
      simp only [prunedKids, List.mem_append] at hq
      rcases hq with hq | hq
      · exact prunedKids_ext_kept excl? targetC r0 rest q u p nm hq hr0 hpq
      · by_cases hx : excl? (listingPath targetC (r0 ++ [c.1])) = true
        · simp [hx] at hq
        · simp only [Bool.not_eq_true] at hx
          rw [if_neg (by simp [hx])] at hq
          have hqpre : (r0 ++ [c.1]) <+: q :=
            prunedNodes_prefix excl? targetC (r0 ++ [c.1]) c.2 (q, u) hq
          have hpq' : p <+: q := (List.prefix_append p [nm]).trans hpq
          rcases Nat.eq_or_lt_of_le (List.IsPrefix.length_le hr0) with heq | hlt
          · have hp : p = r0 :=
              (List.IsPrefix.eq_of_length hr0 heq).symm
            subst hp
            have : nm = c.1 := snoc_prefix_eq hpq hqpre
            rw [this]
            exact hx
          · have hr0' : (r0 ++ [c.1]) <+: p := by
              refine List.prefix_of_prefix_length_le hqpre hpq' ?_
              simp
              omega
            exact prunedNodes_ext_kept excl? targetC (r0 ++ [c.1]) c.2 q u p nm
              hq hr0' hpq

end

mutual

/-- A non-excluded child of a popped directory is itself popped. -/
theorem prunedNodes_child_mem (excl? : List Comp → Bool) (targetC : List Comp) :
    ∀ (r0 : List String) (t : FSTree) (rel : List String)
      (cs : List (String × FSTree)) (nm : String) (c : FSTree),
      (rel, FSTree.dir cs) ∈ prunedNodes excl? targetC r0 t → (nm, c) ∈ cs →
      excl? (listingPath targetC (rel ++ [nm])) = false →
      (rel ++ [nm], c) ∈ prunedNodes excl? targetC r0 t
  | r0, .file d => by
      intro rel cs nm c hmem _ _
      simp [prunedNodes] at hmem
  | r0, .badFile => by
      intro rel cs nm c hmem _ _
      simp [prunedNodes] at hmem
  | r0, .badDir => by
      intro rel cs nm c hmem _ _
      simp [prunedNodes] at hmem
  | r0, .dir cs0 => by
      intro rel cs nm c hmem hnc hkeep
      simp only [prunedNodes, List.mem_cons, Prod.mk.injEq] at hmem ⊢
      rcases hmem with ⟨h1, h2⟩ | hmem
      · subst h1
        have h2' : cs = cs0 := by injection h2
        subst h2'
        refine Or.inr ?_
        exact prunedKids_mem_of_child excl? targetC rel cs (nm, c) hnc hkeep _
          (prunedNodes_self_mem excl? targetC (rel ++ [nm]) c)
      · exact Or.inr
          (prunedKids_child_mem excl? targetC r0 cs0 rel cs nm c hmem hnc hkeep)

/-- List version of `prunedNodes_child_mem`. -/
theorem prunedKids_child_mem (excl? : List Comp → Bool) (targetC : List Comp) :
    ∀ (r0 : List String) (cs0 : List (String × FSTree)) (rel : List String)
      (cs : List (String × FSTree)) (nm : String) (c : FSTree),
      (rel, FSTree.dir cs) ∈ prunedKids excl? targetC r0 cs0 → (nm, c) ∈ cs →
      excl? (listingPath targetC (rel ++ [nm])) = false →
      (rel ++ [nm], c) ∈ prunedKids excl? targetC r0 cs0
  | r0, [] => by intro rel cs nm c hmem _ _; simp [prunedKids] at hmem
  | r0, c0 :: rest => by
      intro rel cs nm c hmem hnc hkeep
      simp only [prunedKids, List.mem_append] at hmem ⊢
      rcases hmem with hmem | hmem
      · exact Or.inl
          (prunedKids_child_mem excl? targetC r0 rest rel cs nm c hmem hnc hkeep)
      · by_cases hx : excl? (listingPath targetC (r0 ++ [c0.1])) = true
        · simp [hx] at hmem
        · simp only [Bool.not_eq_true] at hx
          rw [if_neg (by simp [hx])] at hmem ⊢
          exact Or.inr
            (prunedNodes_child_mem excl? targetC (r0 ++ [c0.1]) c0.2 rel cs nm c
              hmem hnc hkeep)

end

/-- C3, counterexample: the claim asserts exact string matching with "no
normalization whatsoever of ... trailing separators".  But the exclusion
string `t/sub/` (string-unequal to `t/sub`) does match the listing path
`t/sub`, because `PathBuf` equality compares parsed components and the
trailing separator is normalized away. -/
theorem is_excluded_path_trailing_sep_normalized :
    is_excluded_path ("t/sub/") (parsePath ("t/sub")) = true ∧
      ("t/sub/" : String) ≠ ("t/sub") := by
  constructor
  · decide
  · decide

/-- C3, amended: `is_excluded_path` returns true iff the candidate's
listing path equals — as a parsed component list, which normalizes
trailing and repeated separators and non-leading `.` chunks, but
performs no wildcard, glob, prefix, case or `..` handling — one of the
strings obtained by splitting the configured excluded list on commas;
it never fails, and no match means not excluded. -/
theorem is_excluded_path_iff (excluded : String) (p : List Comp) :
    is_excluded_path excluded p = true ↔
      p ∈ (splitOnChar ',' excluded).map parsePath := by
  unfold is_excluded_path prepare_exclude_directories
  exact List.elem_iff

/-- Conversion to `f64` is exact below `2 ^ 53`. -/
theorem roundF64_of_lt {n : Nat} (h : n < 2 ^ 53) : roundF64 n = n := by
  unfold roundF64
  rw [if_pos h]

/-- C7, counterexample: the claim's final arm asserts that any input
above the `Mb` range is mapped to the input divided by 1024³ exactly.
At `2 ^ 53 + 1` the program first performs `bytes as f64`, which rounds
(ties to even) to `2 ^ 53`, so the returned value is `2 ^ 53 / 2 ^ 30`,
not the claimed `(2 ^ 53 + 1) / 2 ^ 30`. -/
theorem as_human_read_gb_not_exact :
    as_human_read (2 ^ 53 + 1) ≠
      (((2 ^ 53 + 1 : Nat) : ℚ) / (1024 * 1024 * 1024), "Gb") := by
  have h : roundF64 (2 ^ 53 + 1) = 2 ^ 53 := by decide
  unfold as_human_read
  rw [if_neg (by norm_num), if_neg (by norm_num), if_neg (by norm_num), h]
  intro hc
  have h1 := congrArg Prod.fst hc
  norm_num at h1

/-- C7, amended: `as_human_read` is a pure total function with exact
integer thresholds: `0..=999` yields the input with label `Kb`;
`1000..=1048575` the input divided by 1024 with `Kb`;
`1048576..=1073741823` the input divided by 1024² with `Mb`; any larger
input yields its `f64` conversion (round to nearest, ties to even on a
53-bit significand — the identity below `2 ^ 53`) divided by 1024³ with
`Gb`, which is the exact quotient for inputs below `2 ^ 53`; in
particular 999 ↦ (999, Kb), 1000 ↦ (0.9765625, Kb), 1048576 ↦ (1, Mb)
and 1073741824 ↦ (1, Gb). -/
theorem as_human_read_spec :
    (∀ n : Nat, n ≤ 999 → as_human_read n = ((n : ℚ), "Kb")) ∧
    (∀ n : Nat, 1000 ≤ n → n ≤ 1048575 →
      as_human_read n = ((n : ℚ) / 1024, "Kb")) ∧
    (∀ n : Nat, 1048576 ≤ n → n ≤ 1073741823 →
      as_human_read n = ((n : ℚ) / (1024 * 1024), "Mb")) ∧
    (∀ n : Nat, 1073741824 ≤ n →
      as_human_read n = ((roundF64 n : ℚ) / (1024 * 1024 * 1024), "Gb")) ∧
    (∀ n : Nat, 1073741824 ≤ n → n < 2 ^ 53 →
      as_human_read n = ((n : ℚ) / (1024 * 1024 * 1024), "Gb")) ∧
    as_human_read 999 = ((999 : ℚ), "Kb") ∧
    as_human_read 1000 = ((0.9765625 : ℚ), "Kb") ∧
    as_human_read 1048576 = ((1 : ℚ), "Mb") ∧
    as_human_read 1073741824 = ((1 : ℚ), "Gb") := by
  have h1 : ∀ n : Nat, n ≤ 999 → as_human_read n = ((n : ℚ), "Kb") := by
    intro n h
    unfold as_human_read KB_DEF
    rw [if_pos h, roundF64_of_lt (by norm_num; omega)]
  have h2 : ∀ n : Nat, 1000 ≤ n → n ≤ 1048575 →
      as_human_read n = ((n : ℚ) / 1024, "Kb") := by
    intro n ha hb
    unfold as_human_read KB_DEF
    rw [if_neg (by omega), if_pos hb, roundF64_of_lt (by norm_num; omega)]
  have h3 : ∀ n : Nat, 1048576 ≤ n → n ≤ 1073741823 →
      as_human_read n = ((n : ℚ) / (1024 * 1024), "Mb") := by
    intro n ha hb
    unfold as_human_read MB_DEF
    rw [if_neg (by omega), if_neg (by omega), if_pos hb,
      roundF64_of_lt (by norm_num; omega)]
  have h4 : ∀ n : Nat, 1073741824 ≤ n →
      as_human_read n = ((roundF64 n : ℚ) / (1024 * 1024 * 1024), "Gb") := by
    intro n ha
    unfold as_human_read GB_DEF
    rw [if_neg (by omega), if_neg (by omega), if_neg (by omega)]
  have h5 : ∀ n : Nat, 1073741824 ≤ n → n < 2 ^ 53 →
      as_human_read n = ((n : ℚ) / (1024 * 1024 * 1024), "Gb") := by
    intro n ha hb
    rw [h4 n ha, roundF64_of_lt hb]
  refine ⟨h1, h2, h3, h4, h5, h1 999 (by omega), ?_, ?_, ?_⟩
  · rw [h2 1000 (by omega) (by omega)]
    norm_num
  · rw [h3 1048576 (by omega) (by omega)]
    norm_num
  · rw [h5 1073741824 (by omega) (by norm_num)]
    norm_num

/-- Witness for C7 at concrete inputs, including the exact sub-`2 ^ 53`
part of the `Gb` arm. -/
theorem as_human_read_spec_witness :
    (500 ≤ 999 ∧ as_human_read 500 = ((500 : ℚ), "Kb")) ∧
      (1000 ≤ 2048 ∧ 2048 ≤ 1048575 ∧
        as_human_read 2048 = ((2048 : ℚ) / 1024, "Kb")) ∧
      (1073741824 ≤ 2147483648 ∧ (2147483648 : Nat) < 2 ^ 53 ∧
        as_human_read 2147483648 =
          ((2147483648 : ℚ) / (1024 * 1024 * 1024), "Gb")) :=
  ⟨⟨by decide, as_human_read_spec.1 500 (by decide)⟩,
    ⟨by decide, by decide, as_human_read_spec.2.1 2048 (by decide) (by decide)⟩,
    ⟨by norm_num, by norm_num,
      as_human_read_spec.2.2.2.2.1 2147483648 (by norm_num) (by norm_num)⟩⟩

/-- C8, counterexample: for the target `~/a~b` (which starts with `~`)
and `HOME` equal to `/h`, the code produces `/h/ab`, not the claimed
`/h/a~b`: `replace('~', "")` deletes the interior tilde as well, so the
rest of the path is not left intact. -/
theorem parse_relative_directory_deletes_interior_tilde :
    parse_relative_directory (some ("/h")) ("~/a~b") =
        Except.ok ("/h/ab") ∧
      ("/h/ab" : String) ≠ ("/h" ++ "/a~b") := by
  constructor
  · rfl
  · decide

/-- C8, amended: for a root path of the form `~ ++ rest`,
`parse_relative_directory` with `HOME` set replaces the leading `~` by
`HOME` and in addition deletes every other `~` occurring in the path
(the source uses `replace('~', "")`); with `HOME` unset it returns an
error which `run` only logs, continuing with the original unexpanded
path; a root path not starting with `~` is left unchanged. -/
theorem parse_relative_directory_spec :
    (∀ home rest : String,
      parse_relative_directory (some home) ("~" ++ rest) =
        Except.ok (home ++ String.mk (rest.data.filter (fun c => c ≠ '~')))) ∧
    (∀ target : String, target.data.head? = some '~' →
      parse_relative_directory none target = Except.error IOErr.homeNotSet ∧
      runTargetAfterExpansion none target = target) ∧
    (∀ (home : Option String) (target : String), target.data.head? ≠ some '~' →
      parse_relative_directory home target = Except.ok target ∧
      runTargetAfterExpansion home target = target) := by
  refine ⟨?_, ?_, ?_⟩
  · intro home rest
    have hdata : ("~" ++ rest).data = '~' :: rest.data := by
      rw [String.data_append]
      rfl
    unfold parse_relative_directory
    rw [hdata]
    rw [if_pos (show ('~' :: rest.data).head? = some '~' from rfl)]
    simp [List.filter_cons]
  · intro target h
    unfold runTargetAfterExpansion parse_relative_directory
    rw [if_pos h]
    exact ⟨rfl, rfl⟩
  · intro home target h
    unfold runTargetAfterExpansion parse_relative_directory
    rw [if_neg h]
    exact ⟨rfl, rfl⟩

/-- Witness for C8 at concrete inputs. -/
theorem parse_relative_directory_spec_witness :
    (parse_relative_directory (some ("/h")) ("~" ++ "/x") =
        Except.ok ("/h" ++ String.mk (("/x" : String).data.filter (fun c => c ≠ '~')))) ∧
      (("~q" : String).data.head? = some '~' ∧
        parse_relative_directory none ("~q") = Except.error IOErr.homeNotSet ∧
        runTargetAfterExpansion none ("~q") = ("~q")) ∧
      (("a" : String).data.head? ≠ some '~' ∧
        parse_relative_directory (some ("/h")) ("a") = Except.ok ("a")) :=
  ⟨parse_relative_directory_spec.1 ("/h") ("/x"),
    ⟨by decide, parse_relative_directory_spec.2.1 ("~q") (by decide)⟩,
    ⟨by decide, (parse_relative_directory_spec.2.2 (some ("/h")) ("a") (by decide)).1⟩⟩

/-- A listing path always has at least the entry's filename component. -/
theorem listingPath_ne_nil (targetC : List Comp) (rel : List String) (nm : String) :
    listingPath targetC (rel ++ [nm]) ≠ [] := by
  unfold listingPath
  simp

mutual

/-- Two exclusion tests that agree on all non-empty paths prune
identically. -/
theorem prunedNodes_congr (excl?₁ excl?₂ : List Comp → Bool) (targetC : List Comp)
    (hagree : ∀ p, p ≠ [] → excl?₁ p = excl?₂ p) :
    ∀ (rel : List String) (t : FSTree),
      prunedNodes excl?₁ targetC rel t = prunedNodes excl?₂ targetC rel t
  | rel, .file d => by simp [prunedNodes]
  | rel, .badFile => by simp [prunedNodes]
  | rel, .badDir => by simp [prunedNodes]
  | rel, .dir cs => by
      simp only [prunedNodes, List.cons.injEq, true_and]
      exact prunedKids_congr excl?₁ excl?₂ targetC hagree rel cs

/-- List version of `prunedNodes_congr`. -/
theorem prunedKids_congr (excl?₁ excl?₂ : List Comp → Bool) (targetC : List Comp)
    (hagree : ∀ p, p ≠ [] → excl?₁ p = excl?₂ p) :
    ∀ (rel : List String) (cs : List (String × FSTree)),
      prunedKids excl?₁ targetC rel cs = prunedKids excl?₂ targetC rel cs
  | rel, [] => by simp [prunedKids]
  | rel, c :: rest => by
      simp only [prunedKids]
      rw [prunedKids_congr excl?₁ excl?₂ targetC hagree rel rest]
      rw [hagree _ (listingPath_ne_nil targetC rel c.1)]
      by_cases hx : excl?₂ (listingPath targetC (rel ++ [c.1])) = true
      · rw [if_pos hx, if_pos hx]
      · rw [if_neg hx, if_neg hx]
        rw [prunedNodes_congr excl?₁ excl?₂ targetC hagree (rel ++ [c.1]) c.2]

end

/-- `zip_files` with the exclusion test replaced by the constantly-false
test: the walk with no exclusion check at all. -/
def zip_files_no_filter (cfg : CliArgs) (t : FSTree) : ZipRun :=
  zipAux (fun _ => false) (parsePath cfg.target) (stackMeasure [([], t)])
    [([], t)] [] 0

theorem zip_files_no_filter_eq_runFlat (cfg : CliArgs) (t : FSTree) :
    zip_files_no_filter cfg t =
      runFlat (prunedNodes (fun _ => false) (parsePath cfg.target) [] t) [] 0 := by
  unfold zip_files_no_filter
  rw [zipAux_eq_runFlat _ _ _ _ _ _ (Nat.le_refl _)]
  simp

/-- C10: with the default empty excluded string,
`prepare_exclude_directories` yields exactly one entry — the empty path;
`is_excluded_path` then rejects no directory entry (listing paths are
never empty); and the archive run is identical to a run with no
exclusion check at all. -/
theorem empty_excluded_no_filtering :
    prepare_exclude_directories ("") = [[]] ∧
    (∀ p : List Comp, p ≠ [] → is_excluded_path ("") p = false) ∧
    (∀ (cfg : CliArgs) (t : FSTree), cfg.excluded = "" →
      zip_files cfg t = zip_files_no_filter cfg t) := by
  have hprep : prepare_exclude_directories ("") = [[]] := by decide
  have hfalse : ∀ p : List Comp, p ≠ [] → is_excluded_path ("") p = false := by
    intro p hp
    unfold is_excluded_path
    rw [hprep]
    cases hc : ([[]] : List (List Comp)).contains p with
    | false => rfl
    | true =>
        exfalso
        have := List.elem_iff.mp hc
        simp at this
        exact hp this
  refine ⟨hprep, hfalse, ?_⟩
  intro cfg t hex
  rw [zip_files_eq_runFlat, zip_files_no_filter_eq_runFlat]
  unfold zipNodes
  rw [prunedNodes_congr (fun p => is_excluded_path cfg.excluded p)
    (fun _ => false) (parsePath cfg.target) ?_ [] t]
  intro p hp
  rw [hex]
  exact hfalse p hp

/-- Witness for C10 at a concrete configuration and tree. -/
theorem empty_excluded_no_filtering_witness :
    ([Comp.normal ("x")] ≠ ([] : List Comp) ∧
      is_excluded_path ("") [Comp.normal ("x")] = false) ∧
    zip_files ⟨"", "t", "", ""⟩ (FSTree.dir [(("a"), FSTree.file [1])]) =
      zip_files_no_filter ⟨"", "t", "", ""⟩
        (FSTree.dir [(("a"), FSTree.file [1])]) :=
  ⟨⟨by decide, empty_excluded_no_filtering.2.1 [Comp.normal ("x")] (by decide)⟩,
    empty_excluded_no_filtering.2.2 ⟨"", "t", "", ""⟩
      (FSTree.dir [(("a"), FSTree.file [1])]) rfl⟩

/-- C4: `calculate_target_size` returns the sum of the byte lengths of
every regular file reachable under the root, descending into all
subdirectories, and never consults the exclusion filter: its result is
unchanged under any excluded list. -/
theorem calculate_target_size_spec (cfg : CliArgs) (t : FSTree)
    (hg : goodTree t = true) :
    calculate_target_size cfg t = Except.ok (totalSize t) ∧
    (∀ e : String, calculate_target_size {cfg with excluded := e} t =
      calculate_target_size cfg t) := by
  constructor
  · rw [calculate_target_size_eq_runCalcFlat]
    rw [runCalcFlat_ok _ _ (firstErr_prunedNodes_none _ _ _ _ hg)]
    rw [sizesOf_prunedNodes]
    simp
  · intro e
    rfl

/-- Witness for C4 at a concrete tree. -/
theorem calculate_target_size_spec_witness :
    goodTree (FSTree.dir [(("a"), FSTree.file [10, 20]),
        (("s"), FSTree.dir [(("b"), FSTree.file [7])])]) = true ∧
    calculate_target_size ⟨"", "t", "", "t/s"⟩
        (FSTree.dir [(("a"), FSTree.file [10, 20]),
          (("s"), FSTree.dir [(("b"), FSTree.file [7])])]) =
      Except.ok 3 :=
  ⟨by decide,
    by
      have h := (calculate_target_size_spec ⟨"", "t", "", "t/s"⟩
        (FSTree.dir [(("a"), FSTree.file [10, 20]),
          (("s"), FSTree.dir [(("b"), FSTree.file [7])])]) (by decide)).1
      rw [h]
      rfl⟩

/-- One archive-sink write against the write-failure oracle `w`:
`none` means every write of this run succeeds, `some k` that the
(k+1)-th write performed from this point on is the first to fail.  The
result is the oracle after a successful write, or `none` when this
write returns `Err`. -/
def doWrite : Option Nat → Option (Option Nat)
  | none => some none
  | some 0 => none
  | some (k + 1) => some (some k)

/-- State of a replayed walk over a pop sequence: sink contents,
`file_counter`, remaining write oracle, and the abort error, if any. -/
structure WalkSt where
  written : List Entry
  fileCounter : Nat
  sink : Option Nat
  error : Option IOErr
deriving DecidableEq

/-- The `zip_files` loop with a fallible archive sink: identical to
`zipAux` except that every sink operation — `zip.add_directory`,
`zip.start_file`, `zip.write_all` and the final `zip.finish()` — is a
`doWrite` against the oracle `w` and aborts the walk through `?` when
it fails.  `zipAux` is the all-writes-succeed slice of this machine
(`zipAuxW_none_eq_zipAux`).  The source's order of operations is kept:
children are pushed before `add_directory`, and `start_file` precedes
`File::open`, so even a file whose open will fail costs one sink write
first. -/
def zipAuxW (excl? : List Comp → Bool) (targetC : List Comp) :
    Nat → List (List String × FSTree) → List Entry → Nat → Option Nat → ZipRun
  | _, [], acc, cnt, w =>
    match doWrite w with
    | none => ⟨acc, cnt, false, some IOErr.writeFailed⟩
    | some _ => ⟨acc, cnt, true, none⟩
  | 0, _ :: _, acc, cnt, _ => ⟨acc, cnt, false, none⟩
  | fuel + 1, (rel, t) :: rest, acc, cnt, w =>
    match t with
    | .dir cs =>
        let newStack := childStack excl? targetC rel (.dir cs) ++ rest
        if rel = [] then zipAuxW excl? targetC fuel newStack acc cnt w
        else
          match doWrite w with
          | none => ⟨acc, cnt, false, some IOErr.writeFailed⟩
          | some w₂ =>
              zipAuxW excl? targetC fuel newStack
                (acc ++ [Entry.directory (renderComps rel ++ "/")]) cnt w₂
    | .badDir => ⟨acc, cnt, false, some IOErr.listDirFailed⟩
    | .file d =>
        match doWrite w with
        | none => ⟨acc, cnt, false, some IOErr.writeFailed⟩
        | some w₂ =>
            match doWrite w₂ with
            | none => ⟨acc, cnt, false, some IOErr.writeFailed⟩
            | some w₃ =>
                zipAuxW excl? targetC fuel rest
                  (acc ++ [Entry.file (renderComps rel) d]) (cnt + 1) w₃
    | .badFile =>
        match doWrite w with
        | none => ⟨acc, cnt, false, some IOErr.writeFailed⟩
        | some _ => ⟨acc, cnt, false, some IOErr.openFileFailed⟩

/-- The loop body replayed over an explicit pop sequence with the
fallible sink, stopping at the first I/O or write error; the final
`finish()` write is not part of the sequence (see `finishStep`). -/
def runNodesW : List (List String × FSTree) → List Entry → Nat → Option Nat →
    WalkSt
  | [], acc, cnt, w => ⟨acc, cnt, w, none⟩
  | (rel, t) :: rest, acc, cnt, w =>
    match t with
    | .dir _ =>
        if rel = [] then runNodesW rest acc cnt w
        else
          match doWrite w with
          | none => ⟨acc, cnt, w, some IOErr.writeFailed⟩
          | some w₂ =>
              runNodesW rest (acc ++ [Entry.directory (renderComps rel ++ "/")])
                cnt w₂
    | .badDir => ⟨acc, cnt, w, some IOErr.listDirFailed⟩
    | .file d =>
        match doWrite w with
        | none => ⟨acc, cnt, w, some IOErr.writeFailed⟩
        | some w₂ =>
            match doWrite w₂ with
            | none => ⟨acc, cnt, w₂, some IOErr.writeFailed⟩
            | some w₃ =>
                runNodesW rest (acc ++ [Entry.file (renderComps rel) d])
                  (cnt + 1) w₃
    | .badFile =>
        match doWrite w with
        | none => ⟨acc, cnt, w, some IOErr.writeFailed⟩
        | some w₂ => ⟨acc, cnt, w₂, some IOErr.openFileFailed⟩

/-- The final `zip.finish()` write after an un-aborted walk; an aborted
walk never reaches it. -/
def finishStep (st : WalkSt) : ZipRun :=
  match st.error with
  | some e => ⟨st.written, st.fileCounter, false, some e⟩
  | none =>
    match doWrite st.sink with
    | none => ⟨st.written, st.fileCounter, false, some IOErr.writeFailed⟩
    | some _ => ⟨st.written, st.fileCounter, true, none⟩

/-- Once the replay of a stack prefix aborts, the rest of the sequence
is never consulted. -/
theorem runNodesW_append_err (a : List (List String × FSTree)) :
    ∀ (b : List (List String × FSTree)) (acc : List Entry) (cnt : Nat)
      (w : Option Nat) (e : IOErr),
      (runNodesW a acc cnt w).error = some e →
      runNodesW (a ++ b) acc cnt w = runNodesW a acc cnt w := by
  induction a with
  | nil => intro b acc cnt w e h; simp [runNodesW] at h
  | cons it rest ih =>
      intro b acc cnt w e h
      obtain ⟨rel, t⟩ := it
      cases t with
      | dir cs =>
          by_cases hrel : rel = []
          · simp only [List.cons_append, runNodesW, if_pos hrel] at h ⊢
            exact ih b _ _ _ e h
          · cases hdw : doWrite w with
            | none => simp only [List.cons_append, runNodesW, if_neg hrel, hdw]
            | some w₂ =>
                simp only [List.cons_append, runNodesW, if_neg hrel, hdw] at h ⊢
                exact ih b _ _ _ e h
      | badDir => simp only [List.cons_append, runNodesW]
      | file d =>
          cases hdw : doWrite w with
          | none => simp only [List.cons_append, runNodesW, hdw]
          | some w₂ =>
              cases hdw2 : doWrite w₂ with
              | none => simp only [List.cons_append, runNodesW, hdw, hdw2]
              | some w₃ =>
                  simp only [List.cons_append, runNodesW, hdw, hdw2] at h ⊢
                  exact ih b _ _ _ e h
      | badFile =>
          cases hdw : doWrite w with
          | none => simp only [List.cons_append, runNodesW, hdw]
          | some w₂ => simp only [List.cons_append, runNodesW, hdw]

/-- Sink contents only grow: what was already written stays written. -/
theorem runNodesW_written_prefix (nodes : List (List String × FSTree)) :
    ∀ (acc : List Entry) (cnt : Nat) (w : Option Nat),
      acc <+: (runNodesW nodes acc cnt w).written := by
  induction nodes with
  | nil => intro acc cnt w; exact List.prefix_refl _
  | cons it rest ih =>
      intro acc cnt w
      obtain ⟨rel, t⟩ := it
      cases t with
      | dir cs =>
          by_cases hrel : rel = []
          · simp only [runNodesW, if_pos hrel]
            exact ih _ _ _
          · cases hdw : doWrite w with
            | none =>
                simp only [runNodesW, if_neg hrel, hdw]
                exact List.prefix_refl _
            | some w₂ =>
                simp only [runNodesW, if_neg hrel, hdw]
                exact (List.prefix_append acc _).trans (ih _ _ _)
      | badDir =>
          simp only [runNodesW]
          exact List.prefix_refl _
      | file d =>
          cases hdw : doWrite w with
          | none =>
              simp only [runNodesW, hdw]
              exact List.prefix_refl _
          | some w₂ =>
              cases hdw2 : doWrite w₂ with
              | none =>
                  simp only [runNodesW, hdw, hdw2]
                  exact List.prefix_refl _
              | some w₃ =>
                  simp only [runNodesW, hdw, hdw2]
                  exact (List.prefix_append acc _).trans (ih _ _ _)
      | badFile =>
          cases hdw : doWrite w with
          | none =>
              simp only [runNodesW, hdw]
              exact List.prefix_refl _
          | some w₂ =>
              simp only [runNodesW, hdw]
              exact List.prefix_refl _

/-- The fallible machine runs the flattened pop sequence and then the
`finish()` write. -/
theorem zipAuxW_eq_runNodesW (excl? : List Comp → Bool) (targetC : List Comp) :
    ∀ (fuel : Nat) (stack : List (List String × FSTree)) (acc : List Entry)
      (cnt : Nat) (w : Option Nat), stackMeasure stack ≤ fuel →
      zipAuxW excl? targetC fuel stack acc cnt w =
        finishStep (runNodesW
          (stack.flatMap (fun it => prunedNodes excl? targetC it.1 it.2))
          acc cnt w) := by
  intro fuel
  induction fuel with
  | zero =>
      intro stack acc cnt w h
      cases stack with
      | nil => rfl
      | cons it rest =>
          exfalso
          have := FSTree.size_pos it.2
          simp [stackMeasure] at h
          omega
  | succ n ih =>
      intro stack acc cnt w h
      cases stack with
      | nil => rfl
      | cons it rest =>
          obtain ⟨rel, t⟩ := it
          cases t with
          | file d =>
              simp only [zipAuxW, List.flatMap_cons, prunedNodes,
                List.cons_append, runNodesW, List.nil_append]
              cases hdw : doWrite w with
              | none => simp [finishStep]
              | some w₂ =>
                  cases hdw2 : doWrite w₂ with
                  | none => simp [finishStep, hdw2]
                  | some w₃ =>
                      have hr := ih rest (acc ++ [Entry.file (renderComps rel) d])
                        (cnt + 1) w₃
                        (by simp [stackMeasure, FSTree.size] at h ⊢; omega)
                      simp only [hdw2]
                      simpa [List.flatMap_def] using hr
          | badFile =>
              simp only [zipAuxW, List.flatMap_cons, prunedNodes,
                List.cons_append, runNodesW, List.nil_append]
              cases hdw : doWrite w with
              | none => simp [finishStep]
              | some w₂ => simp [finishStep]
          | badDir => simp [zipAuxW, prunedNodes, runNodesW, finishStep]
          | dir cs =>
              have hm : stackMeasure
                  (childStack excl? targetC rel (.dir cs) ++ rest) ≤ n := by
                have h1 := stackMeasure_childStack excl? targetC rel (.dir cs)
                rw [stackMeasure_append]
                simp only [stackMeasure] at h
                omega
              have hflat :
                  (childStack excl? targetC rel (.dir cs) ++ rest).flatMap
                      (fun it => prunedNodes excl? targetC it.1 it.2) =
                    prunedKids excl? targetC rel cs ++
                      rest.flatMap (fun it => prunedNodes excl? targetC it.1 it.2) := by
                rw [List.flatMap_append, childStack_flatMap_prunedNodes]
              by_cases hrel : rel = []
              · subst hrel
                simp only [zipAuxW, if_pos rfl]
                rw [ih _ _ _ _ hm, hflat]
                simp [prunedNodes, runNodesW, List.flatMap_def]
              · cases hdw : doWrite w with
                | none =>
                    simp only [zipAuxW, if_neg hrel, hdw]
                    simp only [List.flatMap_cons, prunedNodes, List.cons_append,
                      runNodesW]
                    rw [if_neg hrel, hdw]
                    simp [finishStep]
                | some w₂ =>
                    simp only [zipAuxW, if_neg hrel, hdw]
                    rw [ih _ _ _ _ hm, hflat]
                    simp only [List.flatMap_cons, prunedNodes, List.cons_append,
                      runNodesW]
                    rw [if_neg hrel, hdw]
                    simp [List.flatMap_def]

/-- `zipAux` is the all-writes-succeed slice of the fallible machine. -/
theorem zipAuxW_none_eq_zipAux (excl? : List Comp → Bool) (targetC : List Comp) :
    ∀ (fuel : Nat) (stack : List (List String × FSTree)) (acc : List Entry)
      (cnt : Nat),
      zipAuxW excl? targetC fuel stack acc cnt none =
        zipAux excl? targetC fuel stack acc cnt := by
  intro fuel
  induction fuel with
  | zero => intro stack acc cnt; cases stack <;> rfl
  | succ n ih =>
      intro stack acc cnt
      cases stack with
      | nil => rfl
      | cons it rest =>
          obtain ⟨rel, t⟩ := it
          cases t with
          | dir cs =>
              by_cases hrel : rel = []
              · simp only [zipAuxW, zipAux, if_pos hrel]
                exact ih _ _ _
              · simp only [zipAuxW, zipAux, if_neg hrel, doWrite]
                exact ih _ _ _
          | badDir => rfl
          | file d =>
              simp only [zipAuxW, zipAux, doWrite]
              exact ih _ _ _
          | badFile => rfl

/-- C5: if any error occurs while processing the subtree popped from
the stack top — listing a directory (`read_dir`), opening or reading a
file (`File::open`/`read_to_end`), or writing an entry to the archive
sink (`add_directory`, `start_file`, `write_all`) — the walk aborts
immediately with that error: the result does not depend on the
remaining stack items (they are never processed), `finish()` is never
invoked (`finished = false`), and the sink keeps everything already
written: `acc` is a prefix of the final contents, which add exactly the
entries completed before the failing operation. -/
theorem zip_files_error_aborts (cfg : CliArgs) (rel : List String) (t : FSTree)
    (e : IOErr) (rest : List (List String × FSTree)) (acc : List Entry)
    (cnt : Nat) (w : Option Nat) (fuel : Nat)
    (hfuel : stackMeasure ((rel, t) :: rest) ≤ fuel)
    (herr : (runNodesW (prunedNodes (fun p => is_excluded_path cfg.excluded p)
      (parsePath cfg.target) rel t) acc cnt w).error = some e) :
    (zipAuxW (fun p => is_excluded_path cfg.excluded p) (parsePath cfg.target)
        fuel ((rel, t) :: rest) acc cnt w =
      ⟨(runNodesW (prunedNodes (fun p => is_excluded_path cfg.excluded p)
          (parsePath cfg.target) rel t) acc cnt w).written,
        (runNodesW (prunedNodes (fun p => is_excluded_path cfg.excluded p)
          (parsePath cfg.target) rel t) acc cnt w).fileCounter,
        false, some e⟩) ∧
      acc <+: (runNodesW (prunedNodes (fun p => is_excluded_path cfg.excluded p)
        (parsePath cfg.target) rel t) acc cnt w).written := by
  constructor
  · rw [zipAuxW_eq_runNodesW _ _ _ _ _ _ _ hfuel]
    rw [List.flatMap_cons]
    rw [runNodesW_append_err _ _ _ _ _ _ herr]
    unfold finishStep
    rw [herr]
  · exact runNodesW_written_prefix _ _ _ _

/-- Witness for C5: a sink write failure (the `write_all` of `a`, the
fourth write of the run) and a file-open failure each abort the walk
mid-run, keeping the sibling entry already written and never reaching
`finish()`. -/
theorem zip_files_error_aborts_witness :
    (stackMeasure [([], FSTree.dir [(("a"), FSTree.file [1]),
          (("b"), FSTree.file [2])])] ≤ 4 ∧
      (runNodesW (prunedNodes (fun p => is_excluded_path (("" : String)) p)
          (parsePath ("t")) []
          (FSTree.dir [(("a"), FSTree.file [1]), (("b"), FSTree.file [2])]))
        [] 0 (some 3)).error = some IOErr.writeFailed ∧
      zipAuxW (fun p => is_excluded_path (("" : String)) p) (parsePath ("t")) 4
          [([], FSTree.dir [(("a"), FSTree.file [1]), (("b"), FSTree.file [2])])]
          [] 0 (some 3) =
        ⟨[Entry.file ("b") [2]], 1, false, some IOErr.writeFailed⟩) ∧
    (stackMeasure [([], FSTree.dir [(("bad"), FSTree.badFile),
          (("good"), FSTree.file [5])])] ≤ 4 ∧
      (runNodesW (prunedNodes (fun p => is_excluded_path (("" : String)) p)
          (parsePath ("t")) []
          (FSTree.dir [(("bad"), FSTree.badFile), (("good"), FSTree.file [5])]))
        [] 0 none).error = some IOErr.openFileFailed ∧
      zipAuxW (fun p => is_excluded_path (("" : String)) p) (parsePath ("t")) 4
          [([], FSTree.dir [(("bad"), FSTree.badFile),
            (("good"), FSTree.file [5])])]
          [] 0 none =
        ⟨[Entry.file ("good") [5]], 1, false, some IOErr.openFileFailed⟩) := by
  constructor
  · refine ⟨by decide, by decide, ?_⟩
    have h := (zip_files_error_aborts ⟨"", "t", "", ""⟩ []
      (FSTree.dir [(("a"), FSTree.file [1]), (("b"), FSTree.file [2])])
      IOErr.writeFailed [] [] 0 (some 3) 4 (by decide) (by decide)).1
    rw [h]
    decide
  · refine ⟨by decide, by decide, ?_⟩
    have h := (zip_files_error_aborts ⟨"", "t", "", ""⟩ []
      (FSTree.dir [(("bad"), FSTree.badFile), (("good"), FSTree.file [5])])
      IOErr.openFileFailed [] [] 0 none 4 (by decide) (by decide)).1
    rw [h]
    decide

/-- C1: on an error-free, well-formed directory tree, `zip_files`
finishes without error and the archive holds, for every object popped by
the walk (those under the root surviving the exclusion filter): exactly
one file entry per regular file, named by its root-stripped path and
carrying its exact bytes; exactly one directory entry per non-root
directory, named with a trailing separator; every written entry stems
from such a non-root object; and no entry ever has the root's name. -/
theorem zip_files_archive_contents (cfg : CliArgs) (t : FSTree)
    (hg : goodTree t = true) (hw : wfTree t = true)
    (hd : ∃ cs, t = FSTree.dir cs) :
    (zip_files cfg t).error = none ∧ (zip_files cfg t).finished = true ∧
    (∀ (rel : List String) (d : List Nat),
      (rel, FSTree.file d) ∈ zipNodes cfg t →
      ((zip_files cfg t).written.count (Entry.file (renderComps rel) d)) = 1) ∧
    (∀ (rel : List String) (cs : List (String × FSTree)),
      (rel, FSTree.dir cs) ∈ zipNodes cfg t → rel ≠ [] →
      ((zip_files cfg t).written.count
        (Entry.directory (renderComps rel ++ ("/")))) = 1) ∧
    (∀ e ∈ (zip_files cfg t).written,
      ∃ it ∈ zipNodes cfg t, it.1 ≠ [] ∧ entryOf it = some e) ∧
    (∀ e ∈ (zip_files cfg t).written, e.name ≠ "" ∧ e.name ≠ ("/")) := by
  obtain ⟨cs0, ht⟩ := hd
  have hrun := zip_files_good cfg t hg
  have hwr : (zip_files cfg t).written = entriesOf (zipNodes cfg t) := by
    rw [hrun]
  have hnd : ((zipNodes cfg t).map Prod.fst).Nodup :=
    prunedNodes_fst_nodup _ _ [] t hw
  have hco : ∀ it ∈ zipNodes cfg t, compsOk it.1 = true :=
    prunedNodes_compsOk _ _ [] t hw rfl
  have hund : (entriesOf (zipNodes cfg t)).Nodup := entriesOf_nodup _ hnd hco
  have hsource : ∀ e ∈ (zip_files cfg t).written,
      ∃ it ∈ zipNodes cfg t, it.1 ≠ [] ∧ entryOf it = some e := by
    intro e he
    rw [hwr] at he
    obtain ⟨it, hit, heq⟩ := List.mem_filterMap.mp he
    refine ⟨it, hit, ?_, heq⟩
    intro hnil
    have hit' := hit
    rw [zipNodes, ht] at hit'
    simp only [prunedNodes, List.mem_cons] at hit'
    rcases hit' with h | h
    · rw [h] at heq
      simp [entryOf] at heq
    · obtain ⟨nc, _, hpre⟩ := prunedKids_prefix _ _ [] cs0 it h
      rw [hnil] at hpre
      have := List.IsPrefix.length_le hpre
      simp at this
  refine ⟨by rw [hrun], by rw [hrun], ?_, ?_, hsource, ?_⟩
  · intro rel d hmem
    have hm : Entry.file (renderComps rel) d ∈ entriesOf (zipNodes cfg t) :=
      List.mem_filterMap.mpr ⟨(rel, .file d), hmem, rfl⟩
    rw [hwr]
    exact List.count_eq_one_of_mem hund hm
  · intro rel cs hmem hrel
    have he : entryOf (rel, FSTree.dir cs) =
        some (Entry.directory (renderComps rel ++ ("/"))) := by
      simp [entryOf, hrel]
    have hm : Entry.directory (renderComps rel ++ ("/")) ∈
        entriesOf (zipNodes cfg t) :=
      List.mem_filterMap.mpr ⟨(rel, .dir cs), hmem, he⟩
    rw [hwr]
    exact List.count_eq_one_of_mem hund hm
  · intro e he
    obtain ⟨it, hit, hne, heq⟩ := hsource e he
    have hok := hco it hit
    have hwf' : ∀ s ∈ it.1, wfName s = true := by
      intro s hs
      exact List.all_eq_true.mp hok s hs
    obtain ⟨p, u⟩ := it
    cases u with
    | file d =>
        simp only [entryOf, Option.some.injEq] at heq
        rw [← heq]
        simp only [Entry.name]
        exact ⟨renderComps_ne_empty p hwf' hne, renderComps_ne_slash p hwf'⟩
    | dir cs =>
        simp only [entryOf] at heq
        rw [if_neg hne] at heq
        simp only [Option.some.injEq] at heq
        rw [← heq]
        simp only [Entry.name]
        constructor
        · exact append_slash_ne_empty _
        · intro hsl
          exact renderComps_ne_empty p hwf' hne (append_slash_eq_slash hsl)
    | badFile => simp [entryOf] at heq
    | badDir => simp [entryOf] at heq

/-- Witness for C1 on a concrete tree: the file and directory entries
appear exactly once each. -/
theorem zip_files_archive_contents_witness :
    goodTree (FSTree.dir [(("a.txt"), FSTree.file [104, 105]),
        (("sub"), FSTree.dir [(("b.txt"), FSTree.file [121, 111])])]) = true ∧
    wfTree (FSTree.dir [(("a.txt"), FSTree.file [104, 105]),
        (("sub"), FSTree.dir [(("b.txt"), FSTree.file [121, 111])])]) = true ∧
    ((zip_files ⟨"", "t", "", ""⟩
        (FSTree.dir [(("a.txt"), FSTree.file [104, 105]),
          (("sub"), FSTree.dir [(("b.txt"), FSTree.file [121, 111])])])).written.count
      (Entry.file (renderComps [("a.txt")]) [104, 105])) = 1 ∧
    ((zip_files ⟨"", "t", "", ""⟩
        (FSTree.dir [(("a.txt"), FSTree.file [104, 105]),
          (("sub"), FSTree.dir [(("b.txt"), FSTree.file [121, 111])])])).written.count
      (Entry.directory (renderComps [("sub")] ++ ("/")))) = 1 := by
  refine ⟨by decide, by decide, ?_, ?_⟩
  · exact (zip_files_archive_contents ⟨"", "t", "", ""⟩ _ (by decide) (by decide)
      ⟨_, rfl⟩).2.2.1 [("a.txt")] [104, 105] (by decide)
  · exact (zip_files_archive_contents ⟨"", "t", "", ""⟩ _ (by decide) (by decide)
      ⟨_, rfl⟩).2.2.2.1 [("sub")] [(("b.txt"), FSTree.file [121, 111])]
      (by decide) (by decide)

/-- C2: an entry whose listing path matches the exclusion filter is
never pushed, so neither it nor any of its descendants is ever popped
(first conjunct: nothing at or below an excluded path is visited);
only exact matches are omitted this way (second conjunct: a listed
child of a popped directory whose listing path does not match is itself
popped); and every entry written to the archive stems from a popped
node (third conjunct), so excluded objects are absent from the
archive. -/
theorem zip_files_exclusion (cfg : CliArgs) (t : FSTree) :
    (∀ (rel : List String) (nm : String),
      is_excluded_path cfg.excluded
        (listingPath (parsePath cfg.target) (rel ++ [nm])) = true →
      ∀ q, (rel ++ [nm]) <+: q → q ∉ zipVisits cfg t) ∧
    (∀ (rel : List String) (cs : List (String × FSTree)) (nm : String) (c : FSTree),
      (rel, FSTree.dir cs) ∈ zipNodes cfg t → (nm, c) ∈ cs →
      is_excluded_path cfg.excluded
        (listingPath (parsePath cfg.target) (rel ++ [nm])) = false →
      (rel ++ [nm], c) ∈ zipNodes cfg t) ∧
    (∀ e ∈ (zip_files cfg t).written,
      ∃ it ∈ zipNodes cfg t, entryOf it = some e) := by
  refine ⟨?_, ?_, ?_⟩
  · intro rel nm hex q hpre hq
    obtain ⟨it, hit, hfst⟩ := List.mem_map.mp hq
    have hkept := prunedNodes_ext_kept
      (fun p => is_excluded_path cfg.excluded p) (parsePath cfg.target)
      [] t it.1 it.2 rel nm (by simpa using hit) List.nil_prefix
      (by rw [hfst]; exact hpre)
    have hkept' : is_excluded_path cfg.excluded
        (listingPath (parsePath cfg.target) (rel ++ [nm])) = false := hkept
    rw [hex] at hkept'
    simp at hkept'
  · intro rel cs nm c hmem hnc hkeep
    exact prunedNodes_child_mem _ _ [] t rel cs nm c hmem hnc hkeep
  · intro e he
    rw [zip_files_eq_runFlat] at he
    cases hfe : firstErr (zipNodes cfg t) with
    | none =>
        rw [runFlat_ok _ _ _ hfe] at he
        simp only [List.nil_append] at he
        exact List.mem_filterMap.mp he
    | some er =>
        rw [runFlat_err _ _ _ _ hfe] at he
        simp only [List.nil_append] at he
        obtain ⟨it, hit, heq⟩ := List.mem_filterMap.mp he
        exact ⟨it, (List.takeWhile_sublist _).subset hit, heq⟩

/-- Witness for C2: with exclusion `t/skip`, nothing at or below `skip`
is visited, while the non-matching sibling `sub` is. -/
theorem zip_files_exclusion_witness :
    (is_excluded_path ("t/skip")
        (listingPath (parsePath ("t")) ([] ++ [("skip")])) = true ∧
      ([("skip"), ("c")] : List String) ∉ zipVisits ⟨"", "t", "", "t/skip"⟩
        (FSTree.dir [(("skip"), FSTree.dir [(("c"), FSTree.file [9])]),
          (("sub"), FSTree.file [7])])) ∧
    (([] ++ [("sub")], FSTree.file [7]) ∈ zipNodes ⟨"", "t", "", "t/skip"⟩
        (FSTree.dir [(("skip"), FSTree.dir [(("c"), FSTree.file [9])]),
          (("sub"), FSTree.file [7])])) := by
  constructor
  · constructor
    · decide
    · exact (zip_files_exclusion ⟨"", "t", "", "t/skip"⟩ _).1 [] ("skip")
        (by decide) [("skip"), ("c")] (by decide)
  · exact (zip_files_exclusion ⟨"", "t", "", "t/skip"⟩ _).2.1 []
      [(("skip"), FSTree.dir [(("c"), FSTree.file [9])]),
        (("sub"), FSTree.file [7])] ("sub") (FSTree.file [7])
      (by decide) (by decide) (by decide)

/-- C6: within one traversal of a well-formed finite tree — the
`zip_files` walk or the `calculate_target_size` walk — no relative path
is popped twice, and every popped non-root node is popped after its
parent (`[parent, child]` is a subsequence of the pop order; children
are pushed only when their parent is popped). -/
theorem traversal_visit_order (cfg : CliArgs) (t : FSTree)
    (hw : wfTree t = true) :
    ((zipVisits cfg t).Nodup ∧
      ∀ (p : List String) (n : String), (p ++ [n]) ∈ zipVisits cfg t →
        [p, p ++ [n]].Sublist (zipVisits cfg t)) ∧
    ((calcVisits t).Nodup ∧
      ∀ (p : List String) (n : String), (p ++ [n]) ∈ calcVisits t →
        [p, p ++ [n]].Sublist (calcVisits t)) := by
  refine ⟨⟨?_, ?_⟩, ⟨?_, ?_⟩⟩
  · exact prunedNodes_fst_nodup _ _ [] t hw
  · intro p n hmem
    exact prunedNodes_parent_before _ _ [] t p n List.nil_prefix hmem
  · exact prunedNodes_fst_nodup _ _ [] t hw
  · intro p n hmem
    exact prunedNodes_parent_before _ _ [] t p n List.nil_prefix hmem

/-- Witness for C6 on a concrete tree. -/
theorem traversal_visit_order_witness :
    wfTree (FSTree.dir [(("a"), FSTree.file [1]),
        (("s"), FSTree.dir [(("b"), FSTree.file [2])])]) = true ∧
    (zipVisits ⟨"", "t", "", ""⟩
        (FSTree.dir [(("a"), FSTree.file [1]),
          (("s"), FSTree.dir [(("b"), FSTree.file [2])])])).Nodup ∧
    [[("s")], [("s"), ("b")]].Sublist (zipVisits ⟨"", "t", "", ""⟩
        (FSTree.dir [(("a"), FSTree.file [1]),
          (("s"), FSTree.dir [(("b"), FSTree.file [2])])])) := by
  refine ⟨by decide, ?_, ?_⟩
  · exact (traversal_visit_order ⟨"", "t", "", ""⟩ _ (by decide)).1.1
  · have h := (traversal_visit_order ⟨"", "t", "", ""⟩
      (FSTree.dir [(("a"), FSTree.file [1]),
        (("s"), FSTree.dir [(("b"), FSTree.file [2])])]) (by decide)).1.2
      [("s")] ("b") (by decide)
    exact h

/-- Is a byte a UTF-8 continuation byte? -/
def contOK (b : Nat) : Bool := 128 ≤ b && b ≤ 191

/-- UTF-8 validity of a byte sequence (RFC 3629: no overlongs, no
surrogates, nothing above `U+10FFFF`).  `Path::to_str` succeeds exactly
on valid sequences. -/
def utf8Valid : List Nat → Bool
  | [] => true
  | b :: rest =>
    if b ≤ 127 then utf8Valid rest
    else if 194 ≤ b && b ≤ 223 then
      match rest with
      | b1 :: r => contOK b1 && utf8Valid r
      | [] => false
    else if b = 224 then
      match rest with
      | b1 :: b2 :: r => (160 ≤ b1 && b1 ≤ 191) && contOK b2 && utf8Valid r
      | _ => false
    else if (225 ≤ b && b ≤ 236) || b = 238 || b = 239 then
      match rest with
      | b1 :: b2 :: r => contOK b1 && contOK b2 && utf8Valid r
      | _ => false
    else if b = 237 then
      match rest with
      | b1 :: b2 :: r => (128 ≤ b1 && b1 ≤ 159) && contOK b2 && utf8Valid r
      | _ => false
    else if b = 240 then
      match rest with
      | b1 :: b2 :: b3 :: r =>
          (144 ≤ b1 && b1 ≤ 191) && contOK b2 && contOK b3 && utf8Valid r
      | _ => false
    else if 241 ≤ b && b ≤ 243 then
      match rest with
      | b1 :: b2 :: b3 :: r =>
          contOK b1 && contOK b2 && contOK b3 && utf8Valid r
      | _ => false
    else if b = 244 then
      match rest with
      | b1 :: b2 :: b3 :: r =>
          (128 ≤ b1 && b1 ≤ 143) && contOK b2 && contOK b3 && utf8Valid r
      | _ => false
    else false

/-- The filesystem tree with raw byte-sequence names: on Unix `read_dir`
filenames are arbitrary bytes (`OsString`), not necessarily UTF-8.
Lean `String`s are always valid UTF-8, so the `to_str().unwrap()`
analysis needs this byte-level refinement of `FSTree`. -/
inductive FSTreeB where
  | file (content : List Nat)
  | badFile
  | dir (children : List (List Nat × FSTreeB))
  | badDir

mutual

/-- Node count of a byte-named tree. -/
def FSTreeB.sizeB : FSTreeB → Nat
  | .file _ => 1
  | .badFile => 1
  | .badDir => 1
  | .dir cs => 1 + FSTreeB.sizeBL cs

/-- Total size of a byte-named children list. -/
def FSTreeB.sizeBL : List (List Nat × FSTreeB) → Nat
  | [] => 0
  | c :: r => c.2.sizeB + FSTreeB.sizeBL r

end

theorem FSTreeB.sizeB_pos (t : FSTreeB) : 0 < t.sizeB := by
  cases t <;> simp [FSTreeB.sizeB]

/-- The byte form of `relative_path`: components joined by the `/` byte
(47), as in the `PathBuf`s built by `Path::join`. -/
def joinB : List (List Nat) → List Nat
  | [] => []
  | [c] => c
  | c₁ :: c₂ :: rest => c₁ ++ 47 :: joinB (c₂ :: rest)

/-- An archive entry at byte level: name bytes (directory names carry
the trailing `/` byte) and payload. -/
inductive EntryB where
  | directory (name : List Nat)
  | file (name : List Nat) (data : List Nat)
deriving DecidableEq

/-- Whether processing the node calls `relative_path.to_str().unwrap()`:
directories do unless they are the root (`relative_path != Path::new("")`
guard); files always do (the `start_file` argument), including a file
whose open will fail, since the argument is evaluated first; a
directory whose listing fails errors out before the conversion. -/
def needsConv : List (List Nat) → FSTreeB → Bool
  | rel, .dir _ => if rel = [] then false else true
  | _, .file _ => true
  | _, .badFile => true
  | _, .badDir => false

/-- Whether processing the node aborts the byte-level walk with an I/O
error (given its conversion, if any, succeeded). -/
def isBadNodeB : FSTreeB → Bool
  | .badFile => true
  | .badDir => true
  | _ => false

/-- The listing path of a byte-level entry: the target's byte
components followed by the relative components. -/
def listingPathB (targetB : List (List Nat)) (rel : List (List Nat)) :
    List (List Nat) := targetB ++ rel

/-- Stack measure of the byte-level machine. -/
def stackMeasureB : List (List (List Nat) × FSTreeB) → Nat
  | [] => 0
  | it :: rest => it.2.sizeB + stackMeasureB rest

/-- The `zip_files` loop over byte-named paths.  The result is `none`
when `to_str().unwrap()` panics on a non-UTF-8 relative path; otherwise
`some (written, finished, error)` as in `ZipRun`.  `excl?` abstracts the
`is_excluded_path` test on the entry's listing path (a byte-component
list); the exclusion strings always come from the UTF-8 command line, so
no behaviour is lost by keeping the test abstract. -/
def zipAuxB (excl? : List (List Nat) → Bool) (targetB : List (List Nat)) :
    Nat → List (List (List Nat) × FSTreeB) → List EntryB →
    Option (List EntryB × Bool × Option IOErr)
  | _, [], acc => some (acc, true, none)
  | 0, _ :: _, acc => some (acc, false, none)
  | fuel + 1, (rel, t) :: rest, acc =>
    match t with
    | .dir cs =>
        let kids := ((cs.filter (fun c => !excl? (listingPathB targetB (rel ++ [c.1])))).map
          (fun c => (rel ++ [c.1], c.2))).reverse
        if rel = [] then zipAuxB excl? targetB fuel (kids ++ rest) acc
        else if utf8Valid (joinB rel) then
          zipAuxB excl? targetB fuel (kids ++ rest)
            (acc ++ [EntryB.directory (joinB rel ++ [47])])
        else none
    | .badDir => some (acc, false, some IOErr.listDirFailed)
    | .file d =>
        if utf8Valid (joinB rel) then
          zipAuxB excl? targetB fuel rest (acc ++ [EntryB.file (joinB rel) d])
        else none
    | .badFile =>
        if utf8Valid (joinB rel) then some (acc, false, some IOErr.openFileFailed)
        else none

/-- The byte-level walk from the root. -/
def zip_filesB (excl? : List (List Nat) → Bool) (targetB : List (List Nat))
    (t : FSTreeB) : Option (List EntryB × Bool × Option IOErr) :=
  zipAuxB excl? targetB (stackMeasureB [([], t)]) [([], t)] []

mutual

/-- Pop order of the byte-level walk. -/
def prunedNodesB (excl? : List (List Nat) → Bool) (targetB : List (List Nat))
    (rel : List (List Nat)) : FSTreeB → List (List (List Nat) × FSTreeB)
  | .file d => [(rel, .file d)]
  | .badFile => [(rel, .badFile)]
  | .badDir => [(rel, .badDir)]
  | .dir cs => (rel, .dir cs) :: prunedKidsB excl? targetB rel cs

/-- Pop order of the kept children of a byte-level listing. -/
def prunedKidsB (excl? : List (List Nat) → Bool) (targetB : List (List Nat))
    (rel : List (List Nat)) : List (List Nat × FSTreeB) →
    List (List (List Nat) × FSTreeB)
  | [] => []
  | c :: rest =>
      prunedKidsB excl? targetB rel rest ++
        (if excl? (listingPathB targetB (rel ++ [c.1])) then []
         else prunedNodesB excl? targetB (rel ++ [c.1]) c.2)

end

/-- Pop sequence of a byte-level `zip_files` run. -/
def zipNodesB (excl? : List (List Nat) → Bool) (targetB : List (List Nat))
    (t : FSTreeB) : List (List (List Nat) × FSTreeB) :=
  prunedNodesB excl? targetB [] t

/-- The byte-level loop replayed over an explicit pop sequence. -/
def runFlatB : List (List (List Nat) × FSTreeB) → List EntryB →
    Option (List EntryB × Bool × Option IOErr)
  | [], acc => some (acc, true, none)
  | (rel, t) :: rest, acc =>
    match t with
    | .dir _ =>
        if rel = [] then runFlatB rest acc
        else if utf8Valid (joinB rel) then
          runFlatB rest (acc ++ [EntryB.directory (joinB rel ++ [47])])
        else none
    | .badDir => some (acc, false, some IOErr.listDirFailed)
    | .file d =>
        if utf8Valid (joinB rel) then
          runFlatB rest (acc ++ [EntryB.file (joinB rel) d])
        else none
    | .badFile =>
        if utf8Valid (joinB rel) then some (acc, false, some IOErr.openFileFailed)
        else none

theorem stackMeasureB_append (a b : List (List (List Nat) × FSTreeB)) :
    stackMeasureB (a ++ b) = stackMeasureB a + stackMeasureB b := by
  induction a with
  | nil => simp [stackMeasureB]
  | cons x r ih => simp [stackMeasureB, ih]; omega

theorem stackMeasureB_reverse (a : List (List (List Nat) × FSTreeB)) :
    stackMeasureB a.reverse = stackMeasureB a := by
  induction a with
  | nil => rfl
  | cons x r ih =>
      simp [stackMeasureB, List.reverse_cons, stackMeasureB_append, ih]
      omega

theorem stackMeasureB_kids (excl? : List (List Nat) → Bool)
    (targetB : List (List Nat)) (rel : List (List Nat))
    (cs : List (List Nat × FSTreeB)) :
    stackMeasureB (((cs.filter (fun c => !excl? (listingPathB targetB (rel ++ [c.1])))).map
        (fun c => (rel ++ [c.1], c.2))).reverse) < (FSTreeB.dir cs).sizeB := by
  rw [stackMeasureB_reverse]
  have h : ∀ l : List (List Nat × FSTreeB),
      stackMeasureB ((l.filter (fun c => !excl? (listingPathB targetB (rel ++ [c.1])))).map
        (fun c => (rel ++ [c.1], c.2))) ≤ FSTreeB.sizeBL l := by
    intro l
    induction l with
    | nil => simp [stackMeasureB, FSTreeB.sizeBL]
    | cons c r ih =>
        have hp := FSTreeB.sizeB_pos c.2
        cases hc : excl? (listingPathB targetB (rel ++ [c.1])) with
        | true =>
            simp only [FSTreeB.sizeBL]
            simp [List.filter_cons, hc]
            omega
        | false =>
            simp only [FSTreeB.sizeBL]
            simp [List.filter_cons, hc, stackMeasureB]
            omega
  have := h cs
  simp only [FSTreeB.sizeB]
  omega

theorem kids_flatMap_prunedNodesB (excl? : List (List Nat) → Bool)
    (targetB : List (List Nat)) (rel : List (List Nat))
    (cs : List (List Nat × FSTreeB)) :
    (((cs.filter (fun c => !excl? (listingPathB targetB (rel ++ [c.1])))).map
        (fun c => (rel ++ [c.1], c.2))).reverse).flatMap
        (fun it => prunedNodesB excl? targetB it.1 it.2) =
      prunedKidsB excl? targetB rel cs := by
  induction cs with
  | nil => simp [prunedKidsB]
  | cons c rest ih =>
      cases hc : excl? (listingPathB targetB (rel ++ [c.1])) with
      | true => simp [List.filter_cons, hc, prunedKidsB, ih]
      | false =>
          simp [List.filter_cons, hc, prunedKidsB, List.flatMap_append, ih]

/-- The byte-level machine runs its flattened pop sequence. -/
theorem zipAuxB_eq_runFlatB (excl? : List (List Nat) → Bool)
    (targetB : List (List Nat)) :
    ∀ (fuel : Nat) (stack : List (List (List Nat) × FSTreeB))
      (acc : List EntryB), stackMeasureB stack ≤ fuel →
      zipAuxB excl? targetB fuel stack acc =
        runFlatB (stack.flatMap (fun it => prunedNodesB excl? targetB it.1 it.2))
          acc := by
  intro fuel
  induction fuel with
  | zero =>
      intro stack acc h
      cases stack with
      | nil => rfl
      | cons it rest =>
          exfalso
          have := FSTreeB.sizeB_pos it.2
          simp [stackMeasureB] at h
          omega
  | succ n ih =>
      intro stack acc h
      cases stack with
      | nil => rfl
      | cons it rest =>
          obtain ⟨rel, t⟩ := it
          cases t with
          | file d =>
              simp only [zipAuxB, List.flatMap_cons, prunedNodesB,
                List.cons_append, runFlatB, List.nil_append]
              by_cases hv : utf8Valid (joinB rel) = true
              · rw [if_pos hv, if_pos hv]
                exact ih rest _ (by simp [stackMeasureB, FSTreeB.sizeB] at h ⊢; omega)
              · rw [if_neg hv, if_neg hv]
          | badFile => simp [zipAuxB, prunedNodesB, runFlatB]
          | badDir => simp [zipAuxB, prunedNodesB, runFlatB]
          | dir cs =>
              have hm : stackMeasureB
                  (((cs.filter (fun c => !excl? (listingPathB targetB (rel ++ [c.1])))).map
                    (fun c => (rel ++ [c.1], c.2))).reverse ++ rest) ≤ n := by
                have h1 := stackMeasureB_kids excl? targetB rel cs
                rw [stackMeasureB_append]
                simp only [stackMeasureB] at h
                omega
              have hflat :
                  ((((cs.filter (fun c => !excl? (listingPathB targetB (rel ++ [c.1])))).map
                      (fun c => (rel ++ [c.1], c.2))).reverse) ++ rest).flatMap
                      (fun it => prunedNodesB excl? targetB it.1 it.2) =
                    prunedKidsB excl? targetB rel cs ++
                      rest.flatMap (fun it => prunedNodesB excl? targetB it.1 it.2) := by
                rw [List.flatMap_append, kids_flatMap_prunedNodesB]
              by_cases hrel : rel = []
              · subst hrel
                simp only [zipAuxB, if_pos rfl]
                rw [ih _ _ hm, hflat]
                simp [prunedNodesB, runFlatB, List.flatMap_def]
              · by_cases hv : utf8Valid (joinB rel) = true
                · simp only [zipAuxB, if_neg hrel, if_pos hv]
                  rw [ih _ _ hm, hflat]
                  simp only [List.flatMap_cons, prunedNodesB, List.cons_append,
                    runFlatB]
                  rw [if_neg hrel, if_pos hv]
                  simp [List.flatMap_def]
                · simp only [zipAuxB, if_neg hrel, if_neg hv]
                  simp only [List.flatMap_cons, prunedNodesB, List.cons_append,
                    runFlatB]
                  rw [if_neg hrel, if_neg hv]

theorem zip_filesB_eq_runFlatB (excl? : List (List Nat) → Bool)
    (targetB : List (List Nat)) (t : FSTreeB) :
    zip_filesB excl? targetB t = runFlatB (zipNodesB excl? targetB t) [] := by
  unfold zip_filesB zipNodesB
  rw [zipAuxB_eq_runFlatB _ _ _ _ _ (Nat.le_refl _)]
  simp

/-- If every conversion along the pop sequence succeeds, the byte-level
loop never panics (it returns `some`, be it success or an I/O error). -/
theorem runFlatB_total (nodes : List (List (List Nat) × FSTreeB)) :
    ∀ acc : List EntryB,
      (∀ it ∈ nodes, needsConv it.1 it.2 = true → utf8Valid (joinB it.1) = true) →
      (runFlatB nodes acc).isSome = true := by
  induction nodes with
  | nil => intro acc _; simp [runFlatB]
  | cons it rest ih =>
      intro acc hconv
      obtain ⟨rel, t⟩ := it
      have htail : ∀ it ∈ rest, needsConv it.1 it.2 = true →
          utf8Valid (joinB it.1) = true :=
        fun it hit => hconv it (List.mem_cons_of_mem _ hit)
      cases t with
      | dir cs =>
          by_cases hrel : rel = []
          · simp only [runFlatB, if_pos hrel]
            exact ih _ htail
          · have hv : utf8Valid (joinB rel) = true := by
              refine hconv (rel, .dir cs) (List.mem_cons_self _ _) ?_
              simp [needsConv, hrel]
            simp only [runFlatB, if_neg hrel, if_pos hv]
            exact ih _ htail
      | file d =>
          have hv : utf8Valid (joinB rel) = true :=
            hconv (rel, .file d) (List.mem_cons_self _ _) rfl
          simp only [runFlatB, if_pos hv]
          exact ih _ htail
      | badFile =>
          have hv : utf8Valid (joinB rel) = true :=
            hconv (rel, .badFile) (List.mem_cons_self _ _) rfl
          simp [runFlatB, hv]
      | badDir => simp [runFlatB]

/-- If the walk reaches a node whose relative path needs conversion but
is not valid UTF-8 — every earlier node having neither failed nor
panicked — the byte-level loop panics: the result is `none`, not an
I/O-error outcome. -/
theorem runFlatB_panic (pre : List (List (List Nat) × FSTreeB)) :
    ∀ (rel : List (List Nat)) (u : FSTreeB)
      (post : List (List (List Nat) × FSTreeB)) (acc : List EntryB),
      (∀ it ∈ pre, isBadNodeB it.2 = false ∧
        (needsConv it.1 it.2 = true → utf8Valid (joinB it.1) = true)) →
      needsConv rel u = true → utf8Valid (joinB rel) = false →
      runFlatB (pre ++ (rel, u) :: post) acc = none := by
  induction pre with
  | nil =>
      intro rel u post acc _ hconv hinval
      cases u with
      | dir cs =>
          have hrel : rel ≠ [] := by
            intro he
            rw [he] at hconv
            simp [needsConv] at hconv
          simp [runFlatB, if_neg hrel, hinval]
      | file d => simp [runFlatB, hinval]
      | badFile => simp [runFlatB, hinval]
      | badDir => simp [needsConv] at hconv
  | cons p pre' ih =>
      intro rel u post acc hpre hconv hinval
      have hp := hpre p (List.mem_cons_self _ _)
      have htail : ∀ it ∈ pre', isBadNodeB it.2 = false ∧
          (needsConv it.1 it.2 = true → utf8Valid (joinB it.1) = true) :=
        fun it hit => hpre it (List.mem_cons_of_mem _ hit)
      obtain ⟨q, v⟩ := p
      cases v with
      | dir cs =>
          by_cases hq : q = []
          · simp only [List.cons_append, runFlatB, if_pos hq]
            exact ih rel u post _ htail hconv hinval
          · have hv : utf8Valid (joinB q) = true := by
              refine hp.2 ?_
              simp [needsConv, hq]
            simp only [List.cons_append, runFlatB, if_neg hq, if_pos hv]
            exact ih rel u post _ htail hconv hinval
      | file d =>
          have hv : utf8Valid (joinB q) = true := hp.2 rfl
          simp only [List.cons_append, runFlatB, if_pos hv]
          exact ih rel u post _ htail hconv hinval
      | badFile => simp [isBadNodeB] at hp
      | badDir => simp [isBadNodeB] at hp

/-- C9: `zip_files` is total — it returns `Ok` or an I/O error — only
under the precondition that every popped path's root-relative form is
valid UTF-8.  First conjunct: if every popped node needing the
`to_str()` conversion has a valid relative path, the run never panics.
Second conjunct: if the walk reaches a popped node whose relative path
needs conversion but is not valid UTF-8, the `unwrap` panics (`none`)
instead of surfacing an error — the error branch of the failure model
is never the outcome for such an input. -/
theorem zip_files_utf8_unwrap (excl? : List (List Nat) → Bool)
    (targetB : List (List Nat)) (t : FSTreeB) :
    ((∀ it ∈ zipNodesB excl? targetB t,
        needsConv it.1 it.2 = true → utf8Valid (joinB it.1) = true) →
      (zip_filesB excl? targetB t).isSome = true) ∧
    (∀ (pre post : List (List (List Nat) × FSTreeB)) (rel : List (List Nat))
        (u : FSTreeB),
      zipNodesB excl? targetB t = pre ++ (rel, u) :: post →
      (∀ it ∈ pre, isBadNodeB it.2 = false ∧
        (needsConv it.1 it.2 = true → utf8Valid (joinB it.1) = true)) →
      needsConv rel u = true → utf8Valid (joinB rel) = false →
      zip_filesB excl? targetB t = none) := by
  constructor
  · intro hconv
    rw [zip_filesB_eq_runFlatB]
    exact runFlatB_total _ _ hconv
  · intro pre post rel u hsplit hpre hconv hinval
    rw [zip_filesB_eq_runFlatB, hsplit]
    exact runFlatB_panic pre rel u post [] hpre hconv hinval

/-- Witness for C9: a tree whose only file has the invalid name byte
`0xFF` panics (`none`); with the valid name `a` (byte 97) the run
returns `some`. -/
theorem zip_files_utf8_unwrap_witness :
    ((∀ it ∈ zipNodesB (fun _ => false) [] (FSTreeB.dir [([97], FSTreeB.file [1])]),
        needsConv it.1 it.2 = true → utf8Valid (joinB it.1) = true) ∧
      (zip_filesB (fun _ => false) [] (FSTreeB.dir [([97], FSTreeB.file [1])])).isSome
        = true) ∧
    (needsConv [[255]] (FSTreeB.file [9]) = true ∧
      utf8Valid (joinB [[255]]) = false ∧
      zip_filesB (fun _ => false) [] (FSTreeB.dir [([255], FSTreeB.file [9])]) =
        none) := by
  constructor
  · refine ⟨by decide, ?_⟩
    exact (zip_files_utf8_unwrap (fun _ => false) []
      (FSTreeB.dir [([97], FSTreeB.file [1])])).1 (by decide)
  · refine ⟨by decide, by decide, ?_⟩
    exact (zip_files_utf8_unwrap (fun _ => false) []
      (FSTreeB.dir [([255], FSTreeB.file [9])])).2
      [([], FSTreeB.dir [([255], FSTreeB.file [9])])] [] [[255]]
      (FSTreeB.file [9]) rfl (by decide) (by decide) (by decide)
